import Mathlib

/-! DetFast: barrier protocol, shard partition and per-record pipeline.

A shallow embedding of `CustomBarrier.h`, `KANAddendPL.h`, `UrysohnPL.h` and of the functions
`Worker` and `Training` of `DetFast.cpp`.

* The control model is an interleaving step machine over the two atomics of `CustomBarrier`:
  `n` `Worker` threads and the main thread, one step per access to `Count` or `Phase`.
  A schedule (a list of thread names) is an interleaving; `run` executes it and logs the
  events of the protocol.
* The data model covers the shards (`KANAddendPL`, `UrysohnPL`), the partition of the shards
  into blocks, the per-record pipeline (compute, serial block, update), the pretraining task
  and the epoch loop. `double` is modelled by `ℚ` (exact arithmetic); an array of doubles is
  a total function `Nat → ℚ`; the vector `addends` is a store `Nat → KANAddendPL U`.
* `dataStep` puts both together: the step machine with the effect of every step on
  `PARTIAL_MODELS`, `RESIDUAL` and the shards.

C++ `int` is modelled by `Int`; `counters_in_range` shows that no counter leaves
`[0, max n T]`, so no wrap-around occurs for representable `n` and `T`.
-/

namespace DetFast

/-! ## Definitions -/

/-! ### `CustomBarrier` and the supervisor/worker protocol -/

/-- The shared state of `class CustomBarrier`: `nThreads`, `Count`, `Phase` (all C++ `int`). -/
structure CustomBarrier where
  nThreads : Int
  Count : Int
  Phase : Int
  deriving DecidableEq, Repr

namespace CustomBarrier

/-- Constructor `CustomBarrier(int nThreads) : nThreads(nThreads), Count(0), Phase(0)`. -/
def mk0 (nThreads : Int) : CustomBarrier := ⟨nThreads, 0, 0⟩

/-- First statement of `arrive`: `Count.fetch_add(1)`. -/
def arriveFetchAdd (b : CustomBarrier) : CustomBarrier := { b with Count := b.Count + 1 }

/-- Loop test of `arrive`: `Phase.load() == loop`; `true` means keep spinning. -/
def arriveSpins (b : CustomBarrier) (loop : Int) : Bool := decide (b.Phase = loop)

/-- First statement of `release`: `Count.store(0)`. -/
def releaseStore (b : CustomBarrier) : CustomBarrier := { b with Count := 0 }

/-- Second statement of `release`: `Phase.fetch_add(1)`. -/
def releaseFetchAdd (b : CustomBarrier) : CustomBarrier := { b with Phase := b.Phase + 1 }

/-- Loop test of `waitAll`: `Count.load() < nThreads`; `true` means keep spinning. -/
def waitAllSpins (b : CustomBarrier) : Bool := decide (b.Count < b.nThreads)

end CustomBarrier

/-- Control points of one `Worker` thread. -/
inductive WorkerPc
  /-- at the test `local_round < nTrainingRecords` -/
  | loopHead
  /-- in the loop body, before the `Count.fetch_add` of `barrier.arrive(local_round)` -/
  | arriving
  /-- inside `arrive`, in the loop `while (Phase.load() == loop)` -/
  | spinning
  /-- `arrive` has returned; before `++local_round` -/
  | updating
  /-- the `while` loop has been left -/
  | finished
  deriving DecidableEq, Repr

/-- Local state of a `Worker` thread: its control point and `local_round`. -/
structure WorkerState where
  pc : WorkerPc
  local_round : Int
  deriving DecidableEq, Repr

/-- Control points of the main thread inside the record loop of `Training`. -/
inductive MainPc
  /-- at the test `record < nTrainingRecords` -/
  | loopHead
  /-- inside `barrier.waitAll()` -/
  | waiting
  /-- `waitAll` has returned; before the serial block (lines 208-212) -/
  | serial
  /-- the serial block is done; inside `release`, before `Count.store(0)` -/
  | releasing
  /-- inside `release`, after `Count.store(0)` and before `Phase.fetch_add(1)` -/
  | incPhase
  /-- `release` has returned; before `++record` -/
  | loopNext
  /-- the record loop has been left (threads are being joined) -/
  | joined
  deriving DecidableEq, Repr

/-- One epoch of the synchronised stage: barrier, worker threads, main thread. -/
structure SyncState where
  barrier : CustomBarrier
  workers : List WorkerState
  mainPc : MainPc
  record : Int
  nTrainingRecords : Int
  deriving DecidableEq, Repr

/-- A schedulable thread: worker number `id`, or the main (coordinator) thread. -/
inductive Thread
  | worker (id : Nat)
  | main
  deriving DecidableEq, Repr

/-- Observable events of the protocol, stamped with the round they belong to. -/
inductive Event
  /-- worker `id` executed the `Count.fetch_add` of `arrive(round)` -/
  | countInc (id : Nat) (round : Int)
  /-- worker `id` left the spin loop: `arrive(round)` returns -/
  | arriveReturn (id : Nat) (round : Int)
  /-- `waitAll` read `Count >= nThreads` in round `round` and returns -/
  | allArrived (round : Int)
  /-- the main thread executed `Count.store(0)` of `release` in round `round` -/
  | countReset (round : Int)
  /-- the main thread executed `Phase.fetch_add(1)` of `release` in round `round` -/
  | phaseInc (round : Int)
  deriving DecidableEq, Repr

/-- One atomic step of `Worker` number `id` (lines 72-94 of `DetFast.cpp`), control part.
The step out of `loopHead` is the loop test together with the compute loop and the store into
`PARTIAL_MODELS[id]` (lines 72-78); `arriving` and `spinning` are the two statements of
`arrive`; the step out of `updating` is lines 84-93 (load of `RESIDUAL`, update loop,
`++local_round`). -/
def workerStep (nTrainingRecords : Int) (id : Nat) (w : WorkerState) (b : CustomBarrier) :
    WorkerState × CustomBarrier × Option Event :=
  match w.pc with
  | .loopHead =>
      if w.local_round < nTrainingRecords then ({ w with pc := .arriving }, b, none)
      else ({ w with pc := .finished }, b, none)
  | .arriving =>
      ({ w with pc := .spinning }, b.arriveFetchAdd, some (.countInc id w.local_round))
  | .spinning =>
      if b.arriveSpins w.local_round then (w, b, none)
      else ({ w with pc := .updating }, b, some (.arriveReturn id w.local_round))
  | .updating => ({ pc := .loopHead, local_round := w.local_round + 1 }, b, none)
  | .finished => (w, b, none)

/-- One atomic step of the main thread in the record loop (lines 204-217 of `DetFast.cpp`),
control part: loop test, one iteration of the loop of `waitAll`, the serial block, the two
statements of `release`, `++record`. -/
def mainStep (s : SyncState) : SyncState × Option Event :=
  match s.mainPc with
  | .loopHead =>
      if s.record < s.nTrainingRecords then ({ s with mainPc := .waiting }, none)
      else ({ s with mainPc := .joined }, none)
  | .waiting =>
      if s.barrier.waitAllSpins then (s, none)
      else ({ s with mainPc := .serial }, some (.allArrived s.record))
  | .serial => ({ s with mainPc := .releasing }, none)
  | .releasing =>
      ({ s with barrier := s.barrier.releaseStore, mainPc := .incPhase },
        some (.countReset s.record))
  | .incPhase =>
      ({ s with barrier := s.barrier.releaseFetchAdd, mainPc := .loopNext },
        some (.phaseInc s.record))
  | .loopNext => ({ s with record := s.record + 1, mainPc := .loopHead }, none)
  | .joined => (s, none)

/-- One step of the whole system: the scheduled thread performs its next atomic action.
Scheduling a worker id that does not exist leaves the state unchanged. -/
def step (s : SyncState) (t : Thread) : SyncState × Option Event :=
  match t with
  | .main => mainStep s
  | .worker id =>
      match s.workers[id]? with
      | none => (s, none)
      | some w =>
          let r := workerStep s.nTrainingRecords id w s.barrier
          ({ s with barrier := r.2.1, workers := s.workers.set id r.1 }, r.2.2)

/-- Append the event of a step (if any) to the chronological log. -/
def logStep (c : SyncState × List Event) (t : Thread) : SyncState × List Event :=
  ((step c.1 t).1, c.2 ++ (step c.1 t).2.toList)

/-- Run a schedule from a state with a log. -/
def runFrom (c : SyncState × List Event) (sched : List Thread) : SyncState × List Event :=
  sched.foldl logStep c

/-- Start of an epoch: `CustomBarrier barrier(THREADS)`, `THREADS` workers with
`local_round = 0`, main thread with `record = 0`. -/
def initState (nThreads : Nat) (nTrainingRecords : Int) : SyncState where
  barrier := CustomBarrier.mk0 nThreads
  workers := List.replicate nThreads ⟨.loopHead, 0⟩
  mainPc := .loopHead
  record := 0
  nTrainingRecords := nTrainingRecords

/-- The state and event log reached from the start of an epoch under interleaving `sched`. -/
def run (nThreads : Nat) (nTrainingRecords : Int) (sched : List Thread) :
    SyncState × List Event :=
  runFrom (initState nThreads nTrainingRecords, []) sched

/-! ### Invariants of the protocol -/

/-- What a worker's local state must look like relative to the shared `Phase`. -/
def WorkerOK (nTrainingRecords Phase : Int) (w : WorkerState) : Prop :=
  0 ≤ w.local_round ∧
  match w.pc with
  | .loopHead => w.local_round = Phase
  | .arriving => w.local_round = Phase ∧ w.local_round < nTrainingRecords
  | .spinning =>
      (w.local_round = Phase ∨ w.local_round + 1 = Phase) ∧ w.local_round < nTrainingRecords
  | .updating => w.local_round + 1 = Phase ∧ w.local_round < nTrainingRecords
  | .finished => w.local_round = Phase ∧ nTrainingRecords ≤ w.local_round

/-- The worker has incremented `Count` for round `Phase` and is still spinning on it. -/
def parkedAt (Phase : Int) (w : WorkerState) : Bool :=
  decide (w.pc = .spinning ∧ w.local_round = Phase)

/-- The inductive invariant of the protocol. -/
structure Inv (s : SyncState) : Prop where
  nthreads : s.barrier.nThreads = s.workers.length
  record_nonneg : 0 ≤ s.record
  phase : s.barrier.Phase = if s.mainPc = .loopNext then s.record + 1 else s.record
  inLoop : s.mainPc ≠ .loopHead → s.mainPc ≠ .joined → s.record < s.nTrainingRecords
  joined : s.mainPc = .joined → s.nTrainingRecords ≤ s.record
  record_le : s.record ≤ max s.nTrainingRecords 0
  count : s.barrier.Count =
    if s.mainPc = .incPhase then 0 else (s.workers.countP (parkedAt s.barrier.Phase) : Nat)
  allArrived : s.mainPc = .serial ∨ s.mainPc = .releasing ∨ s.mainPc = .incPhase →
    ∀ w ∈ s.workers, w.pc = .spinning ∧ w.local_round = s.barrier.Phase
  workers : ∀ w ∈ s.workers, WorkerOK s.nTrainingRecords s.barrier.Phase w

/-- Worker state `w` is past the `Count.fetch_add` of `arrive(k)`. -/
def arrivedAt (w : WorkerState) (k : Int) : Prop :=
  k < w.local_round ∨ (k = w.local_round ∧ (w.pc = .spinning ∨ w.pc = .updating))

/-- Number of `Phase.fetch_add` events in a log. -/
def phaseIncs (L : List Event) : Nat :=
  L.countP (fun e => match e with | .phaseInc _ => true | _ => false)

/-- Number of "all arrived" observations by `waitAll` in a log. -/
def observations (L : List Event) : Nat :=
  L.countP (fun e => match e with | .allArrived _ => true | _ => false)

/-- How the event log relates to the current state. -/
structure LogInv (s : SyncState) (L : List Event) : Prop where
  phase_logged : ∀ k, 0 ≤ k → k < s.barrier.Phase → Event.phaseInc k ∈ L
  phase_sound : ∀ k, Event.phaseInc k ∈ L → 0 ≤ k ∧ k < s.barrier.Phase
  inc_logged : ∀ i w, s.workers[i]? = some w → ∀ k, 0 ≤ k → arrivedAt w k →
    Event.countInc i k ∈ L
  phase_count : (phaseIncs L : Int) = s.barrier.Phase
  obs_count : (observations L : Int) =
    if s.mainPc = .serial ∨ s.mainPc = .releasing ∨ s.mainPc = .incPhase ∨
        s.mainPc = .loopNext then s.record + 1
    else s.record

/-- The rendezvous order on a chronological event log for `n` workers: every return of
`arrive(k)` is preceded by the `Phase` increment of round `k`, and both statements of
`release()` in round `k` are preceded by the `Count` increment of `arrive(k)` of each of the
`n` workers. -/
def RendezvousOrder (n : Nat) (L : List Event) : Prop :=
  ∀ pre e post, L = pre ++ e :: post →
    (∀ i k, e = .arriveReturn i k → Event.phaseInc k ∈ pre) ∧
    (∀ k, e = .countReset k ∨ e = .phaseInc k → ∀ i, i < n → Event.countInc i k ∈ pre)

/-- Everything known about a configuration (state and log) reached by some interleaving. -/
structure Good (n : Nat) (T : Int) (c : SyncState × List Event) : Prop where
  inv : Inv c.1
  log : LogInv c.1 c.2
  order : RendezvousOrder n c.2
  len : c.1.workers.length = n
  recs : c.1.nTrainingRecords = T

/-! ### Shards -/

/-- The methods of class `UnivariatePL` that `UrysohnPL` and `KANAddendPL` call. The header
`UnivariatePL.h` is not part of the sources, so the class is a parameter: `U` is the object
state, and every method returns the state it leaves behind. -/
structure UnivariatePLOps (U : Type) where
  GetDerivative : U → ℚ → ℚ × U
  UpdateUsingMemory : U → ℚ → U
  GetFunctionUsingInput : U → ℚ → Bool → ℚ × U

/-- Class `UrysohnPL`: the array `_univariateList` of `_length` univariate functions. -/
structure UrysohnPL (U : Type) where
  _univariateList : List U

/-- Loop of `UrysohnPL::GetValueUsingInput`, from index `i` on, with accumulator `f`. -/
def UrysohnPL.sumFrom {U : Type} (ops : UnivariatePLOps U) (inputs : Nat → ℚ)
    (noUpdate : Bool) : List U → Nat → ℚ → ℚ × List U
  | [], _, f => (f, [])
  | x :: xs, i, f =>
      let r := ops.GetFunctionUsingInput x (inputs i) noUpdate
      let rest := UrysohnPL.sumFrom ops inputs noUpdate xs (i + 1) (f + r.1)
      (rest.1, r.2 :: rest.2)

/-- Method `UrysohnPL::GetValueUsingInput(inputs, noUpdate)`. -/
def UrysohnPL.GetValueUsingInput {U : Type} (ops : UnivariatePLOps U) (u : UrysohnPL U)
    (inputs : Nat → ℚ) (noUpdate : Bool) : ℚ × UrysohnPL U :=
  let r := UrysohnPL.sumFrom ops inputs noUpdate u._univariateList 0 0
  (r.1, ⟨r.2⟩)

/-- Method `UrysohnPL::UpdateUsingMemory(delta)`. -/
def UrysohnPL.UpdateUsingMemory {U : Type} (ops : UnivariatePLOps U) (u : UrysohnPL U)
    (delta : ℚ) : UrysohnPL U :=
  ⟨u._univariateList.map (fun x => ops.UpdateUsingMemory x delta)⟩

/-- Class `KANAddendPL` (one shard): `_u`, `_lastInnerValue`, `_univariate`. -/
structure KANAddendPL (U : Type) where
  _u : UrysohnPL U
  _lastInnerValue : ℚ
  _univariate : U

/-- Method `KANAddendPL::UpdateUsingMemory(diff)`. -/
def KANAddendPL.UpdateUsingMemory {U : Type} (ops : UnivariatePLOps U) (a : KANAddendPL U)
    (diff : ℚ) : KANAddendPL U :=
  let d := ops.GetDerivative a._univariate a._lastInnerValue
  { _u := a._u.UpdateUsingMemory ops (diff * d.1)
    _lastInnerValue := a._lastInnerValue
    _univariate := ops.UpdateUsingMemory d.2 diff }

/-- Method `KANAddendPL::ComputeUsingInput(input, noUpdate)`: the returned value and the
shard state left behind. -/
def KANAddendPL.ComputeUsingInput {U : Type} (ops : UnivariatePLOps U) (a : KANAddendPL U)
    (input : Nat → ℚ) (noUpdate : Bool) : ℚ × KANAddendPL U :=
  let v := a._u.GetValueUsingInput ops input noUpdate
  let r := ops.GetFunctionUsingInput a._univariate v.1 noUpdate
  (r.1, { _u := v.2, _lastInnerValue := v.1, _univariate := r.2 })

/-- The shard store: `addends[j]` for every shard number `j`. -/
abbrev Addends (U : Type) := Nat → KANAddendPL U

/-! ### Partition and the per-record pipeline -/

/-- The block of shard numbers collected for thread `i` in `Training`:
`for (j = i * block_size; j < (i + 1) * block_size; ++j) push_back(addends[j])`. -/
def threadBlock (block_size i : Nat) : List Nat :=
  List.range' (i * block_size) ((i + 1) * block_size - i * block_size)

/-- The DISPATCH part of `Training`: `block_size = nAddends / THREADS`, and one `Worker`
thread is started per `i < THREADS` with its block. The result lists the blocks of the
started threads, in thread order. -/
def dispatch (nAddends THREADS : Nat) : List (List Nat) :=
  (List.range THREADS).map (threadBlock (nAddends / THREADS))

/-- First half of the body of `Worker`: sum `ComputeUsingInput(features[local_round])` over
the thread's addends and store the sum into `PARTIAL_MODELS[id]`. -/
def workerCompute {U : Type} (ops : UnivariatePLOps U) (id : Nat) (block : List Nat)
    (features : Nat → ℚ) (st : Addends U × (Nat → ℚ)) : Addends U × (Nat → ℚ) :=
  let r := block.foldl
    (fun (acc : ℚ × Addends U) j =>
      let c := (acc.2 j).ComputeUsingInput ops features false
      (acc.1 + c.1, Function.update acc.2 j c.2))
    (0, st.1)
  (r.2, Function.update st.2 id r.1)

/-- The serial block of `Training`: sum `PARTIAL_MODELS[t]` for `t < THREADS`; the value
stored into `RESIDUAL` is `target_training[record] - model`. -/
def serialBlock (THREADS : Nat) (PARTIAL_MODELS : Nat → ℚ) (target : ℚ) : ℚ :=
  target - (List.range THREADS).foldl (fun model t => model + PARTIAL_MODELS t) 0

/-- The signal a `Worker` passes to `UpdateUsingMemory`: it loads `RESIDUAL` and executes
`residual *= mu`. -/
def workerSignal (RESIDUAL mu : ℚ) : ℚ := RESIDUAL * mu

/-- Second half of the body of `Worker`: `UpdateUsingMemory(residual)` on each addend of the
block. Returns the store and the list of calls made, as (shard number, argument). -/
def workerUpdate {U : Type} (ops : UnivariatePLOps U) (block : List Nat) (RESIDUAL mu : ℚ)
    (st : Addends U × List (Nat × ℚ)) : Addends U × List (Nat × ℚ) :=
  block.foldl
    (fun acc j =>
      (Function.update acc.1 j ((acc.1 j).UpdateUsingMemory ops (workerSignal RESIDUAL mu)),
        acc.2 ++ [(j, workerSignal RESIDUAL mu)]))
    st

/-- `mu /= nAddends` in `Training`. -/
def scaledMu (mu : ℚ) (nAddends : Nat) : ℚ := mu / nAddends

/-- Result of one synchronised round. -/
structure RoundResult (U : Type) where
  addends : Addends U
  PARTIAL_MODELS : Nat → ℚ
  RESIDUAL : ℚ
  calls : List (Nat × ℚ)

/-- One synchronised round for one record: every worker computes and publishes its partial
model, the main thread runs the serial block, every worker updates its block. The workers are
run in thread order; `mu` is the value passed to `Worker` (already divided by `nAddends`). -/
def syncRound {U : Type} (ops : UnivariatePLOps U) (nAddends THREADS : Nat) (mu : ℚ)
    (features : Nat → ℚ) (target : ℚ) (addends : Addends U) (PARTIAL_MODELS : Nat → ℚ) :
    RoundResult U :=
  let block_size := nAddends / THREADS
  let c := (List.range THREADS).foldl
    (fun st i => workerCompute ops i (threadBlock block_size i) features st)
    (addends, PARTIAL_MODELS)
  let residual := serialBlock THREADS c.2 target
  let u := (List.range THREADS).foldl
    (fun st i => workerUpdate ops (threadBlock block_size i) residual mu st) (c.1, [])
  { addends := u.1, PARTIAL_MODELS := c.2, RESIDUAL := residual, calls := u.2 }

/-- The signal the claim expects in a round: `(mu0 / S) * (target - Σ_{j<S} compute_j)`,
each shard's `ComputeUsingInput` being evaluated in the state the shard has when the round
starts. -/
def expectedSignal {U : Type} (ops : UnivariatePLOps U) (S : Nat) (mu0 : ℚ)
    (features : Nat → ℚ) (target : ℚ) (addends : Addends U) : ℚ :=
  (mu0 / S) *
    (target - ∑ j ∈ Finset.range S, ((addends j).ComputeUsingInput ops features false).1)

/-- A small concrete univariate function used to instantiate the theorems: the object is one
slope `u`, the function value at `x` is `u * x`, its derivative is `u`, and an update adds the
signal to the slope. -/
def linearStub : UnivariatePLOps ℚ where
  GetDerivative := fun u _ => (u, u)
  UpdateUsingMemory := fun u d => u + d
  GetFunctionUsingInput := fun u x _ => (u * x, u)

/-- A store in which every shard has one inner function and all slopes are `1`. -/
def stubAddends : Addends ℚ := fun _ => ⟨⟨[1]⟩, 0, 1⟩

/-! ### Epoch loop -/

/-- The epoch loop of the second stage of `Training`,
`for (epoch = 0; epoch < 16; ++epoch) { body; if (validation_pearson > termination) break; }`,
with `fuel` iterations left. `runEpoch` is one loop body up to the `printf` (threads, record
loop, join, validation): it maps the program state to `validation_pearson` and the state left
behind. The result is the final state and the number of epochs that were started. -/
def epochLoop {σ : Type} (runEpoch : σ → ℚ × σ) (termination : ℚ) :
    Nat → Nat → σ → σ × Nat
  | 0, epoch, s => (s, epoch)
  | fuel + 1, epoch, s =>
      let r := runEpoch s
      if r.1 > termination then (r.2, epoch + 1)
      else epochLoop runEpoch termination fuel (epoch + 1) r.2

/-- The bound of the epoch loop in `Training`. -/
def maxEpochs : Nat := 16

/-- The second concurrent stage of `Training`: the epoch loop from `epoch = 0`. -/
def secondStage {σ : Type} (runEpoch : σ → ℚ × σ) (termination : ℚ) (s : σ) : σ × Nat :=
  epochLoop runEpoch termination maxEpochs 0 s

/-- State after `k` complete epochs when nothing stops the loop. -/
def stateAfter {σ : Type} (runEpoch : σ → ℚ × σ) (s : σ) : Nat → σ
  | 0 => s
  | k + 1 => (runEpoch (stateAfter runEpoch s k)).2

/-- The validation correlation `p_k` measured at the end of epoch `k`. -/
def pearsonOf {σ : Type} (runEpoch : σ → ℚ × σ) (s : σ) (k : Nat) : ℚ :=
  (runEpoch (stateAfter runEpoch s k)).1

/-! ### Pretraining -/

/-- Body of the inner loop of the pretraining lambda of `Training` for record `i`:
features `x = inputs_training[i]`, target `y = target_training[i]`. -/
def pretrainRecord {U : Type} (ops : UnivariatePLOps U) (first second : Nat)
    (x : Nat → ℚ) (y mu : ℚ) (addends : Addends U) : Addends U :=
  let c1 := (addends first).ComputeUsingInput ops x false
  let A1 := Function.update addends first c1.2
  let c2 := (A1 second).ComputeUsingInput ops x false
  let A2 := Function.update A1 second c2.2
  let model := c1.1 + c2.1
  let residual := (y - model) * mu
  let A3 := Function.update A2 first ((A2 first).UpdateUsingMemory ops residual)
  Function.update A3 second ((A3 second).UpdateUsingMemory ops residual)

/-- The pretraining task (lambda) of the pair `(first, second)`: two epochs over all
`nTrainingRecords` records. -/
def pretrainTask {U : Type} (ops : UnivariatePLOps U) (first second : Nat)
    (inputs_training : Nat → Nat → ℚ) (target_training : Nat → ℚ) (mu : ℚ)
    (nTrainingRecords : Nat) (addends : Addends U) : Addends U :=
  (List.range 2).foldl
    (fun A _ =>
      (List.range nTrainingRecords).foldl
        (fun A i =>
          pretrainRecord ops first second (inputs_training i) (target_training i) mu A)
        A)
    addends

/-- A store transformer reads and writes only the shards in `D`: shards outside `D` are left
as they are, and the new contents of the shards in `D` depend only on their old contents. -/
def LocalTo {U : Type} (D : Nat → Prop) (F : Addends U → Addends U) : Prop :=
  (∀ A k, ¬ D k → F A k = A k) ∧
  (∀ A B, (∀ k, D k → A k = B k) → ∀ k, D k → F A k = F B k)

/-- A toy epoch body used to instantiate the loop: the state counts the epochs run so far and
the correlation measured in the epoch started in state `s` is `s / 10`. -/
def rampEpoch (s : Nat) : ℚ × Nat := ((s : ℚ) / 10, s + 1)

/-! ### A schedule that completes an epoch -/

/-- Run a schedule on a state, forgetting the events. -/
def exec (s : SyncState) (sched : List Thread) : SyncState :=
  sched.foldl (fun s t => (step s t).1) s

/-- The schedule that lets workers `a, a+1, ..., a+c-1` in turn run the fragment `frag`. -/
def sweepSched (frag : Nat → List Thread) : Nat → Nat → List Thread
  | _, 0 => []
  | a, c + 1 => frag a ++ sweepSched frag (a + 1) c

/-- The state between two rounds: every worker and the main thread at their loop heads with
round number `k`, `Count = 0`, `Phase = k`. -/
def roundState (n : Nat) (T k : Int) : SyncState :=
  ⟨⟨n, 0, k⟩, List.replicate n ⟨.loopHead, k⟩, .loopHead, k, T⟩

/-- A schedule for one full round: every worker arrives, the main thread runs one loop
iteration, every worker leaves `arrive` and advances. -/
def roundSched (n : Nat) : List Thread :=
  sweepSched (fun i => [.worker i, .worker i]) 0 n ++
    [.main, .main, .main, .main, .main, .main] ++
    sweepSched (fun i => [.worker i, .worker i]) 0 n

/-- A schedule for a complete epoch of `R` rounds: `R` rounds, then the main thread and every
worker leave their loops. -/
def epochSched (n : Nat) : Nat → List Thread
  | 0 => .main :: sweepSched (fun i => [.worker i]) 0 n
  | R + 1 => roundSched n ++ epochSched n R

/-! ### The step machine with data -/

/-- The parameters of one epoch of the synchronised stage that the threads only read. -/
structure EpochConfig (U : Type) where
  ops : UnivariatePLOps U
  nAddends : Nat
  THREADS : Nat
  /-- the `mu` argument of `Worker` -/
  mu : ℚ
  inputs_training : Nat → Nat → ℚ
  target_training : Nat → ℚ

/-- Control state together with the shared data: the globals `RESIDUAL` and `PARTIAL_MODELS`
and the shards. -/
structure DataState (U : Type) where
  ctl : SyncState
  RESIDUAL : ℚ
  PARTIAL_MODELS : Nat → ℚ
  addends : Addends U

/-- One step of a thread with its effect on the data. The step from a worker's loop head into
the loop body runs lines 73-78 of `Worker` (compute loop and store of the partial model); the
step that ends with `++local_round` runs lines 84-90 (load of `RESIDUAL`, `residual *= mu`,
update loop); the main thread's step through the serial block runs lines 208-212. All other
steps touch only the barrier. Each of these three steps accesses, besides the thread's own
block of shards, one shared cell written by nobody else at that time (`phase_separation`). -/
def dataStep {U : Type} (cfg : EpochConfig U) (d : DataState U) (t : Thread) : DataState U :=
  let ctl' := (step d.ctl t).1
  match t with
  | .main =>
      match d.ctl.mainPc with
      | .serial =>
          { d with
            ctl := ctl'
            RESIDUAL := serialBlock cfg.THREADS d.PARTIAL_MODELS
              (cfg.target_training d.ctl.record.toNat) }
      | _ => { d with ctl := ctl' }
  | .worker id =>
      match d.ctl.workers[id]? with
      | none => { d with ctl := ctl' }
      | some w =>
          match w.pc with
          | .loopHead =>
              if w.local_round < d.ctl.nTrainingRecords then
                let r := workerCompute cfg.ops id (threadBlock (cfg.nAddends / cfg.THREADS) id)
                  (cfg.inputs_training w.local_round.toNat) (d.addends, d.PARTIAL_MODELS)
                { d with ctl := ctl', addends := r.1, PARTIAL_MODELS := r.2 }
              else { d with ctl := ctl' }
          | .updating =>
              let r := workerUpdate cfg.ops (threadBlock (cfg.nAddends / cfg.THREADS) id)
                d.RESIDUAL cfg.mu (d.addends, [])
              { d with ctl := ctl', addends := r.1 }
          | _ => { d with ctl := ctl' }

/-- Start of an epoch with shards `addends` and arbitrary contents of the globals. -/
def dataInit {U : Type} (cfg : EpochConfig U) (nTrainingRecords : Int) (addends : Addends U)
    (RESIDUAL : ℚ) (PARTIAL_MODELS : Nat → ℚ) : DataState U :=
  ⟨initState cfg.THREADS nTrainingRecords, RESIDUAL, PARTIAL_MODELS, addends⟩

/-- The data state reached from the start of an epoch under interleaving `sched`. -/
def dataRun {U : Type} (cfg : EpochConfig U) (nTrainingRecords : Int) (addends : Addends U)
    (RESIDUAL : ℚ) (PARTIAL_MODELS : Nat → ℚ) (sched : List Thread) : DataState U :=
  sched.foldl (dataStep cfg) (dataInit cfg nTrainingRecords addends RESIDUAL PARTIAL_MODELS)

/-- The shards after `k` synchronised rounds executed one after the other (records
`0, ..., k-1`). -/
def seqRounds {U : Type} (cfg : EpochConfig U) (addends : Addends U) : Nat → Addends U
  | 0 => addends
  | k + 1 =>
      (syncRound cfg.ops cfg.nAddends cfg.THREADS cfg.mu (cfg.inputs_training k)
        (cfg.target_training k) (seqRounds cfg addends k) (fun _ => 0)).addends

/-- The value of `RESIDUAL` in round `k` of the sequential execution. -/
def seqResidual {U : Type} (cfg : EpochConfig U) (addends : Addends U) (k : Nat) : ℚ :=
  (syncRound cfg.ops cfg.nAddends cfg.THREADS cfg.mu (cfg.inputs_training k)
    (cfg.target_training k) (seqRounds cfg addends k) (fun _ => 0)).RESIDUAL

/-- What shard `j` returns and becomes when it computes record `k` in the sequential
execution. -/
def seqCompute {U : Type} (cfg : EpochConfig U) (addends : Addends U) (k j : Nat) :
    ℚ × KANAddendPL U :=
  (seqRounds cfg addends k j).ComputeUsingInput cfg.ops (cfg.inputs_training k) false

/-- The worker is between its compute phase and the end of its update phase. -/
def WorkerPc.midRound (pc : WorkerPc) : Prop :=
  pc = .arriving ∨ pc = .spinning ∨ pc = .updating

/-- How the data of an interleaved execution relates to the sequential execution from the
shards `A0`: a worker at round `r` holds in its block the sequential shards of round `r`
(before its compute) or their computed versions (after), its partial model is the sum over
its block, and `RESIDUAL` is the sequential residual of the last round aggregated. -/
structure DataInv {U : Type} (cfg : EpochConfig U) (A0 : Addends U) (d : DataState U) :
    Prop where
  shards_before : ∀ i w, d.ctl.workers[i]? = some w → ¬ w.pc.midRound →
    ∀ j, j ∈ threadBlock (cfg.nAddends / cfg.THREADS) i →
      d.addends j = seqRounds cfg A0 w.local_round.toNat j
  shards_after : ∀ i w, d.ctl.workers[i]? = some w → w.pc.midRound →
    ∀ j, j ∈ threadBlock (cfg.nAddends / cfg.THREADS) i →
      d.addends j = (seqCompute cfg A0 w.local_round.toNat j).2
  partials : ∀ i w, d.ctl.workers[i]? = some w → w.pc.midRound →
    d.PARTIAL_MODELS i = ∑ t ∈ Finset.range (cfg.nAddends / cfg.THREADS),
      (seqCompute cfg A0 w.local_round.toNat (i * (cfg.nAddends / cfg.THREADS) + t)).1
  residual_new :
    d.ctl.mainPc = .releasing ∨ d.ctl.mainPc = .incPhase ∨ d.ctl.mainPc = .loopNext →
      d.RESIDUAL = seqResidual cfg A0 d.ctl.record.toNat
  residual_old :
    d.ctl.mainPc = .loopHead ∨ d.ctl.mainPc = .waiting ∨ d.ctl.mainPc = .serial ∨
      d.ctl.mainPc = .joined →
    0 < d.ctl.record → d.RESIDUAL = seqResidual cfg A0 (d.ctl.record.toNat - 1)
  others : ∀ j, cfg.THREADS * (cfg.nAddends / cfg.THREADS) ≤ j → d.addends j = A0 j

/-! ## Theorems -/

theorem set_decomp {α : Type} (ws : List α) (i : Nat) (w : α) (h : ws[i]? = some w) :
    ∃ l₁ l₂, ws = l₁ ++ w :: l₂ ∧ l₁.length = i ∧ ∀ w', ws.set i w' = l₁ ++ w' :: l₂ := by
  induction ws generalizing i with
  | nil => simp at h
  | cons a ws ih =>
    cases i with
    | zero =>
      simp at h
      exact ⟨[], ws, by simp [h], rfl, fun w' => by simp⟩
    | succ i =>
      simp at h
      obtain ⟨l₁, l₂, h1, h2, h3⟩ := ih i h
      exact ⟨a :: l₁, l₂, by simp [h1], by simp [h2], fun w' => by simp [h3]⟩

theorem inv_init (n : Nat) (T : Int) : Inv (initState n T) := by
  refine ⟨?_, ?_, ?_, ?_, ?_, ?_, ?_, ?_, ?_⟩ <;>
    simp [initState, CustomBarrier.mk0, WorkerOK, parkedAt, List.countP_replicate]

theorem inv_mainStep (s : SyncState) (h : Inv s) : Inv (mainStep s).1 := by
  obtain ⟨h1, h2, h3, h4, h5, h9, h6, h7, h8⟩ := h
  unfold mainStep
  cases hpc : s.mainPc <;> simp only [hpc] at h3 h4 h5 h6 h7 ⊢
  · -- loopHead
    split <;> refine ⟨?_, ?_, ?_, ?_, ?_, ?_, ?_, ?_, ?_⟩ <;> simp_all
  · -- waiting
    split
    · refine ⟨?_, ?_, ?_, ?_, ?_, ?_, ?_, ?_, ?_⟩ <;> simp_all
    · rename_i hw
      have hall : ∀ w ∈ s.workers, w.pc = .spinning ∧ w.local_round = s.barrier.Phase := by
        have hle : s.workers.countP (parkedAt s.barrier.Phase) ≤ s.workers.length :=
          List.countP_le_length _
        have hc : s.workers.countP (parkedAt s.barrier.Phase) = s.workers.length := by
          simp [CustomBarrier.waitAllSpins] at hw
          simp at h6
          omega
        intro w hwm
        have := (List.countP_eq_length.mp hc) w hwm
        simpa [parkedAt] using this
      refine ⟨?_, ?_, ?_, ?_, ?_, ?_, ?_, ?_, ?_⟩ <;> simp_all
  · -- serial
    have hall := h7 (Or.inl trivial)
    refine ⟨?_, ?_, ?_, ?_, ?_, ?_, ?_, ?_, ?_⟩ <;> simp_all
  · -- releasing
    have hall := h7 (Or.inr (Or.inl trivial))
    refine ⟨?_, ?_, ?_, ?_, ?_, ?_, ?_, ?_, ?_⟩ <;> simp_all [CustomBarrier.releaseStore]
  · -- incPhase
    have hall := h7 (Or.inr (Or.inr trivial))
    refine ⟨?_, ?_, ?_, ?_, ?_, ?_, ?_, ?_, ?_⟩ <;> simp_all [CustomBarrier.releaseFetchAdd]
    · have : s.workers.countP (parkedAt (s.record + 1)) = 0 := by
        rw [List.countP_eq_zero]
        intro w hw
        have := hall w hw
        simp [parkedAt, this]
      simp [this]
    · intro w hw
      have := hall w hw
      simp [WorkerOK, this, h4, h2]
  · -- loopNext
    refine ⟨?_, ?_, ?_, ?_, ?_, ?_, ?_, ?_, ?_⟩ <;> simp_all
    · omega
    · omega
  · -- joined
    refine ⟨?_, ?_, ?_, ?_, ?_, ?_, ?_, ?_, ?_⟩ <;> simp_all

theorem inv_replace (b : CustomBarrier) (C' : Int) (l₁ l₂ : List WorkerState)
    (w w' : WorkerState) (mpc : MainPc) (rec T : Int)
    (h : Inv ⟨b, l₁ ++ w :: l₂, mpc, rec, T⟩)
    (hok : WorkerOK T b.Phase w')
    (hall : mpc = .serial ∨ mpc = .releasing ∨ mpc = .incPhase →
      w'.pc = .spinning ∧ w'.local_round = b.Phase)
    (hcnt : if mpc = .incPhase then C' = b.Count
      else C' + (if parkedAt b.Phase w then 1 else 0)
        = b.Count + (if parkedAt b.Phase w' then 1 else 0)) :
    Inv ⟨{ b with Count := C' }, l₁ ++ w' :: l₂, mpc, rec, T⟩ := by
  obtain ⟨h1, h2, h3, h4, h5, h9, h6, h7, h8⟩ := h
  simp only at h1 h2 h3 h4 h5 h6 h7 h8 h9
  refine ⟨?_, h2, h3, h4, h5, h9, ?_, ?_, ?_⟩ <;> simp only
  · simpa using h1
  · by_cases hm : mpc = .incPhase
    · simp only [hm, if_true] at hcnt h6 ⊢
      rw [hcnt, h6]
    · simp only [hm, if_false] at hcnt h6 ⊢
      simp only [List.countP_append, List.countP_cons] at h6 ⊢
      push_cast at h6 ⊢
      split_ifs at hcnt h6 ⊢ <;> omega
  · intro hm x hx
    simp only [List.mem_append, List.mem_cons] at hx
    rcases hx with hx | hx | hx
    · exact h7 hm x (by simp [hx])
    · subst hx; exact hall hm
    · exact h7 hm x (by simp [hx])
  · intro x hx
    simp only [List.mem_append, List.mem_cons] at hx
    rcases hx with hx | hx | hx
    · exact h8 x (by simp [hx])
    · subst hx; exact hok
    · exact h8 x (by simp [hx])

theorem inv_step (s : SyncState) (t : Thread) (h : Inv s) : Inv (step s t).1 := by
  cases t with
  | main => exact inv_mainStep s h
  | worker id =>
    unfold step
    simp only
    cases hw : s.workers[id]? with
    | none => simpa using h
    | some w =>
      obtain ⟨l₁, l₂, hl, hlen, hset⟩ := set_decomp _ _ _ hw
      simp only [hset]
      obtain ⟨b, ws, mpc, rec, T⟩ := s
      simp only at hl ⊢
      subst hl
      have hwOK := h.workers w (by simp)
      have h7w := fun hm => h.allArrived hm w (by simp)
      simp only at hwOK h7w
      unfold WorkerOK at hwOK
      obtain ⟨pc, lr⟩ := w
      cases pc <;> simp only at hwOK h7w
      · -- loopHead
        by_cases hlt : lr < T
        · have := inv_replace b b.Count l₁ l₂ _ ⟨.arriving, lr⟩ mpc rec T h
            (by simp [WorkerOK]; omega) (fun hm => by simpa using h7w hm)
            (by simp [parkedAt])
          simpa [workerStep, hlt] using this
        · have := inv_replace b b.Count l₁ l₂ _ ⟨.finished, lr⟩ mpc rec T h
            (by simp [WorkerOK, hwOK]; omega) (fun hm => by simpa using h7w hm)
            (by simp [parkedAt])
          simpa [workerStep, hlt] using this
      · -- arriving
        have := inv_replace b (b.Count + 1) l₁ l₂ _ ⟨.spinning, lr⟩ mpc rec T h
          (by simp [WorkerOK]; omega) (fun hm => by simpa using h7w hm)
          (by
            split
            · rename_i hm
              simpa using h7w (Or.inr (Or.inr hm))
            · simp [parkedAt, hwOK])
        simpa [workerStep, CustomBarrier.arriveFetchAdd] using this
      · -- spinning
        by_cases hsp : b.Phase = lr
        · simpa [workerStep, CustomBarrier.arriveSpins, hsp] using h
        · have := inv_replace b b.Count l₁ l₂ _ ⟨.updating, lr⟩ mpc rec T h
            (by simp [WorkerOK]; omega) (fun hm => by have := h7w hm; simp at this; omega)
            (by simp [parkedAt]; omega)
          simpa [workerStep, CustomBarrier.arriveSpins, hsp] using this
      · -- updating
        have := inv_replace b b.Count l₁ l₂ _ ⟨.loopHead, lr + 1⟩ mpc rec T h
          (by simp [WorkerOK]; omega) (fun hm => by simpa using h7w hm)
          (by simp [parkedAt])
        simpa [workerStep] using this
      · -- finished
        simpa [workerStep] using h

theorem logInv_init (n : Nat) (T : Int) : LogInv (initState n T) [] := by
  refine ⟨?_, ?_, ?_, ?_, ?_⟩ <;>
    simp [initState, CustomBarrier.mk0, phaseIncs, observations]
  intro i w hw k hk
  have hmem : w ∈ List.replicate n (⟨.loopHead, 0⟩ : WorkerState) :=
    List.getElem?_mem hw
  have hweq : w = ⟨.loopHead, 0⟩ := (List.mem_replicate.mp hmem).2
  subst hweq
  simp [arrivedAt]
  omega

theorem logInv_mainStep (s : SyncState) (L : List Event) (h : Inv s) (hL : LogInv s L) :
    LogInv (mainStep s).1 (L ++ (mainStep s).2.toList) := by
  obtain ⟨h1, h2, h3, h4, h5, h9, h6, h7, h8⟩ := h
  obtain ⟨g1, g2, g3, g4, g5⟩ := hL
  obtain ⟨b, ws, mpc, rec, T⟩ := s
  simp only at h1 h2 h3 h4 h5 h6 h7 h8 g1 g2 g3 g4 g5
  unfold mainStep
  cases mpc <;> simp only [reduceCtorEq, if_false, if_true, or_false, false_or, or_true,
    true_or, or_self] at h3 g5 ⊢
  · -- loopHead
    split <;> simp only [Option.toList, List.append_nil] <;>
      exact ⟨g1, g2, g3, g4, by simpa using g5⟩
  · -- waiting
    split
    · simp only [Option.toList, List.append_nil]
      exact ⟨g1, g2, g3, g4, by simpa using g5⟩
    · refine ⟨?_, ?_, ?_, ?_, ?_⟩ <;> simp only [Option.toList]
      · intro k hk1 hk2; simp [g1 k hk1 hk2]
      · intro k hk; simp at hk; exact g2 k hk
      · intro i w hw k hk1 hk2; simp [g3 i w hw k hk1 hk2]
      · simpa [phaseIncs, List.countP_append] using g4
      · simp [observations, List.countP_append] at g5 ⊢
        omega
  · -- serial
    simp only [Option.toList, List.append_nil]
    exact ⟨g1, g2, g3, g4, by simpa using g5⟩
  · -- releasing
    refine ⟨?_, ?_, ?_, ?_, ?_⟩ <;> simp only [Option.toList, CustomBarrier.releaseStore]
    · intro k hk1 hk2; simp [g1 k hk1 hk2]
    · intro k hk; simp at hk; exact g2 k hk
    · intro i w hw k hk1 hk2; simp [g3 i w hw k hk1 hk2]
    · simpa [phaseIncs, List.countP_append] using g4
    · simpa [observations, List.countP_append] using g5
  · -- incPhase
    refine ⟨?_, ?_, ?_, ?_, ?_⟩ <;> simp only [Option.toList, CustomBarrier.releaseFetchAdd]
    · intro k hk1 hk2
      by_cases hk : k = rec
      · simp [hk]
      · have := g1 k hk1 (by omega)
        simp [this]
    · intro k hk
      simp at hk
      rcases hk with hk | hk
      · have := g2 k hk
        omega
      · omega
    · intro i w hw k hk1 hk2; simp [g3 i w hw k hk1 hk2]
    · simp [phaseIncs, List.countP_append] at g4 ⊢
      omega
    · simpa [observations, List.countP_append] using g5
  · -- loopNext
    simp only [Option.toList, List.append_nil]
    exact ⟨g1, g2, g3, g4, by simpa using g5⟩
  · -- joined
    simp only [Option.toList, List.append_nil]
    exact ⟨g1, g2, g3, g4, by simpa using g5⟩

theorem logInv_replace (s : SyncState) (L : List Event) (id : Nat) (w w' : WorkerState)
    (b' : CustomBarrier) (ev : Option Event) (hL : LogInv s L)
    (hw : s.workers[id]? = some w) (hphase : b'.Phase = s.barrier.Phase)
    (harr : ∀ k, 0 ≤ k → arrivedAt w' k → arrivedAt w k ∨ ev = some (.countInc id k))
    (hev1 : ∀ k, ev ≠ some (.phaseInc k)) (hev2 : ∀ k, ev ≠ some (.allArrived k)) :
    LogInv { s with barrier := b', workers := s.workers.set id w' } (L ++ ev.toList) := by
  obtain ⟨g1, g2, g3, g4, g5⟩ := hL
  refine ⟨?_, ?_, ?_, ?_, ?_⟩ <;> simp only [hphase]
  · intro k hk1 hk2
    exact List.mem_append_left _ (g1 k hk1 hk2)
  · intro k hk
    rcases List.mem_append.mp hk with hk | hk
    · exact g2 k hk
    · cases ev with
      | none => simp at hk
      | some e =>
        simp at hk
        exact absurd (by rw [hk]) (hev1 k)
  · intro i x hx k hk1 hk2
    by_cases hi : id = i
    · subst hi
      have hlt : id < s.workers.length := by
        rcases Nat.lt_or_ge id s.workers.length with h | h
        · exact h
        · rw [List.getElem?_eq_none h] at hw; simp at hw
      rw [List.getElem?_set_self hlt] at hx
      cases hx
      rcases harr k hk1 hk2 with h | h
      · exact List.mem_append_left _ (g3 id w hw k hk1 h)
      · simp [h]
    · rw [List.getElem?_set_ne hi] at hx
      exact List.mem_append_left _ (g3 i x hx k hk1 hk2)
  · cases ev with
    | none => simpa using g4
    | some e =>
      cases e <;> first
        | exact absurd rfl (hev1 _)
        | simpa [phaseIncs, List.countP_append] using g4
  · cases ev with
    | none => simpa using g5
    | some e =>
      cases e <;> first
        | exact absurd rfl (hev2 _)
        | simpa [observations, List.countP_append] using g5

theorem logInv_step (s : SyncState) (L : List Event) (t : Thread) (h : Inv s)
    (hL : LogInv s L) : LogInv (step s t).1 (L ++ (step s t).2.toList) := by
  cases t with
  | main => exact logInv_mainStep s L h hL
  | worker id =>
    unfold step
    simp only
    cases hw : s.workers[id]? with
    | none => simpa using hL
    | some w =>
      simp only
      obtain ⟨pc, lr⟩ := w
      apply logInv_replace s L id _ _ _ _ hL hw
      · unfold workerStep
        cases pc <;> simp only [CustomBarrier.arriveFetchAdd] <;> split <;> rfl
      · intro k hk
        unfold workerStep
        cases pc <;> simp only [arrivedAt] <;> (try split) <;> simp <;> omega
      · intro k
        unfold workerStep
        cases pc <;> simp only <;> (try split) <;> simp
      · intro k
        unfold workerStep
        cases pc <;> simp only <;> (try split) <;> simp

theorem rendezvousOrder_nil (n : Nat) : RendezvousOrder n [] := by
  intro pre e post h
  simp at h

theorem rendezvousOrder_snoc (n : Nat) (L : List Event) (e : Event)
    (h : RendezvousOrder n L)
    (h1 : ∀ i k, e = .arriveReturn i k → Event.phaseInc k ∈ L)
    (h2 : ∀ k, e = .countReset k ∨ e = .phaseInc k → ∀ i, i < n → Event.countInc i k ∈ L) :
    RendezvousOrder n (L ++ [e]) := by
  intro pre e' post heq
  rcases List.eq_nil_or_concat post with hp | ⟨post', a, hp⟩
  · subst hp
    have : L = pre ∧ [e] = [e'] := List.append_inj' heq rfl
    obtain ⟨hl, he⟩ := this
    simp at he
    subst hl he
    exact ⟨h1, h2⟩
  · subst hp
    have heq' : L ++ [e] = (pre ++ e' :: post') ++ [a] := by simpa using heq
    have := List.append_inj' heq' rfl
    exact h pre e' post' this.1

theorem step_workers_length (s : SyncState) (t : Thread) :
    (step s t).1.workers.length = s.workers.length := by
  cases t with
  | main =>
    simp only [step, mainStep]
    cases s.mainPc <;> simp only <;> (try split) <;> rfl
  | worker id =>
    simp only [step]
    cases s.workers[id]? <;> simp

theorem step_nTrainingRecords (s : SyncState) (t : Thread) :
    (step s t).1.nTrainingRecords = s.nTrainingRecords := by
  cases t with
  | main =>
    simp only [step, mainStep]
    cases s.mainPc <;> simp only <;> (try split) <;> rfl
  | worker id =>
    simp only [step]
    cases s.workers[id]? <;> simp

theorem step_arriveReturn (s : SyncState) (t : Thread) (i : Nat) (k : Int)
    (h : (step s t).2 = some (.arriveReturn i k)) :
    t = .worker i ∧ ∃ w, s.workers[i]? = some w ∧ w.pc = .spinning ∧ w.local_round = k ∧
      s.barrier.Phase ≠ k := by
  cases t with
  | main =>
    simp only [step, mainStep] at h
    revert h
    cases s.mainPc <;> simp only <;> (try split) <;> simp
  | worker id =>
    simp only [step] at h
    cases hw : s.workers[id]? with
    | none => simp [hw] at h
    | some w =>
      obtain ⟨pc, lr⟩ := w
      simp only [hw, workerStep] at h
      revert h
      cases pc <;> simp only <;> (try split) <;> simp
      rename_i hsp
      intro h1 h2
      subst h1 h2
      refine ⟨rfl, _, hw, rfl, rfl, ?_⟩
      simpa [CustomBarrier.arriveSpins] using hsp

theorem step_countReset (s : SyncState) (t : Thread) (k : Int)
    (h : (step s t).2 = some (.countReset k)) :
    t = .main ∧ s.mainPc = .releasing ∧ s.record = k := by
  cases t with
  | main =>
    simp only [step, mainStep] at h
    revert h
    cases hpc : s.mainPc <;> simp only <;> (try split) <;> simp
  | worker id =>
    simp only [step] at h
    revert h
    cases hw : s.workers[id]? with
    | none => simp
    | some w =>
      obtain ⟨pc, lr⟩ := w
      simp only [workerStep]
      cases pc <;> simp only <;> (try split) <;> simp

theorem step_phaseInc (s : SyncState) (t : Thread) (k : Int)
    (h : (step s t).2 = some (.phaseInc k)) :
    t = .main ∧ s.mainPc = .incPhase ∧ s.record = k := by
  cases t with
  | main =>
    simp only [step, mainStep] at h
    revert h
    cases hpc : s.mainPc <;> simp only <;> (try split) <;> simp
  | worker id =>
    simp only [step] at h
    revert h
    cases hw : s.workers[id]? with
    | none => simp
    | some w =>
      obtain ⟨pc, lr⟩ := w
      simp only [workerStep]
      cases pc <;> simp only <;> (try split) <;> simp

theorem order_step (s : SyncState) (L : List Event) (t : Thread) (h : Inv s)
    (hL : LogInv s L) (ho : RendezvousOrder s.workers.length L) :
    RendezvousOrder s.workers.length (L ++ (step s t).2.toList) := by
  cases hev : (step s t).2 with
  | none => simpa using ho
  | some e =>
    simp only [Option.toList]
    apply rendezvousOrder_snoc _ _ _ ho
    · intro i k he
      subst he
      obtain ⟨-, w, hw, hpc, hlr, hne⟩ := step_arriveReturn s t i k hev
      have hok := h.workers w (List.getElem?_mem hw)
      simp only [WorkerOK, hpc] at hok
      exact hL.phase_logged k (by omega) (by omega)
    · intro k he i hi
      have hrec : (s.mainPc = .serial ∨ s.mainPc = .releasing ∨ s.mainPc = .incPhase) ∧
          s.record = k := by
        rcases he with he | he
        · subst he
          have := step_countReset s t k hev
          exact ⟨Or.inr (Or.inl this.2.1), this.2.2⟩
        · subst he
          have := step_phaseInc s t k hev
          exact ⟨Or.inr (Or.inr this.2.1), this.2.2⟩
      have hph : s.barrier.Phase = k := by
        have := h.phase
        rcases hrec.1 with hm | hm | hm <;> simp [hm] at this <;> omega
      have hw : s.workers[i]? = some (s.workers.get ⟨i, hi⟩) := by
        simp [List.getElem?_eq_getElem hi]
      have hall := h.allArrived hrec.1 _ (List.getElem?_mem hw)
      refine hL.inc_logged i _ hw k ?_ ?_
      · have := h.record_nonneg
        omega
      · right
        exact ⟨by omega, Or.inl hall.1⟩

theorem good_init (n : Nat) (T : Int) : Good n T (initState n T, []) :=
  ⟨inv_init n T, logInv_init n T, rendezvousOrder_nil n, by simp [initState], rfl⟩

theorem good_logStep (n : Nat) (T : Int) (c : SyncState × List Event) (t : Thread)
    (h : Good n T c) : Good n T (logStep c t) := by
  obtain ⟨h1, h2, h3, h4, h5⟩ := h
  refine ⟨inv_step _ _ h1, logInv_step _ _ _ h1 h2, ?_, ?_, ?_⟩
  · have := order_step c.1 c.2 t h1 h2 (h4 ▸ h3)
    rw [h4] at this
    exact this
  · simp only [logStep]; rw [step_workers_length, h4]
  · simp only [logStep]; rw [step_nTrainingRecords, h5]

theorem good_runFrom (n : Nat) (T : Int) (sched : List Thread) :
    ∀ c, Good n T c → Good n T (runFrom c sched) := by
  induction sched with
  | nil => intro c h; exact h
  | cons t sched ih =>
    intro c h
    exact ih _ (good_logStep n T c t h)

theorem good_run (n : Nat) (T : Int) (sched : List Thread) : Good n T (run n T sched) :=
  good_runFrom n T sched _ (good_init n T)

theorem runFrom_fst (sched : List Thread) :
    ∀ c : SyncState × List Event, (runFrom c sched).1 = exec c.1 sched := by
  induction sched with
  | nil => intro c; rfl
  | cons t sched ih =>
    intro c
    simp only [runFrom, exec, List.foldl_cons] at ih ⊢
    rw [ih]
    rfl

theorem exec_append (s : SyncState) (a b : List Thread) :
    exec s (a ++ b) = exec (exec s a) b := by
  simp [exec, List.foldl_append]

theorem getElem?_append_cons {α : Type} (l₁ l₂ : List α) (w : α) :
    (l₁ ++ w :: l₂)[l₁.length]? = some w := by
  induction l₁ with
  | nil => simp
  | cons a l₁ ih => simpa using ih

theorem set_append_cons {α : Type} (l₁ l₂ : List α) (w w' : α) :
    (l₁ ++ w :: l₂).set l₁.length w' = l₁ ++ w' :: l₂ := by
  induction l₁ with
  | nil => rfl
  | cons a l₁ ih => simp [ih]

theorem sweep_workers (T : Int) (w w' : WorkerState) (g : CustomBarrier → CustomBarrier)
    (P : CustomBarrier → Prop) (frag : Nat → List Thread) (hP : ∀ b, P b → P (g b))
    (hfrag : ∀ (b : CustomBarrier) (l₁ l₂ : List WorkerState) (m : MainPc) (rec : Int), P b →
      exec ⟨b, l₁ ++ w :: l₂, m, rec, T⟩ (frag l₁.length) = ⟨g b, l₁ ++ w' :: l₂, m, rec, T⟩) :
    ∀ (c a : Nat) (b : CustomBarrier) (m : MainPc) (rec : Int), P b →
      exec ⟨b, List.replicate a w' ++ List.replicate c w, m, rec, T⟩ (sweepSched frag a c)
        = ⟨g^[c] b, List.replicate (a + c) w', m, rec, T⟩ := by
  intro c
  induction c with
  | zero =>
    intro a b m rec _
    simp [sweepSched, exec]
  | succ c ih =>
    intro a b m rec hb
    have h1 := hfrag b (List.replicate a w') (List.replicate c w) m rec hb
    rw [List.length_replicate] at h1
    simp only [sweepSched, exec_append, List.replicate_succ]
    rw [h1]
    have h2 : List.replicate a w' ++ w' :: List.replicate c w
        = List.replicate (a + 1) w' ++ List.replicate c w := by
      rw [List.replicate_succ', List.append_assoc]
      rfl
    rw [h2, ih (a + 1) (g b) m rec (hP b hb)]
    simp only [Function.iterate_succ, Function.comp]
    congr 2
    omega

theorem step_worker_at (b : CustomBarrier) (l₁ l₂ : List WorkerState) (w : WorkerState)
    (m : MainPc) (rec T : Int) :
    (step ⟨b, l₁ ++ w :: l₂, m, rec, T⟩ (.worker l₁.length)).1
      = ⟨(workerStep T l₁.length w b).2.1, l₁ ++ (workerStep T l₁.length w b).1 :: l₂,
          m, rec, T⟩ := by
  simp only [step, getElem?_append_cons, set_append_cons]

theorem iterate_arriveFetchAdd (c : Nat) (b : CustomBarrier) :
    CustomBarrier.arriveFetchAdd^[c] b = ⟨b.nThreads, b.Count + c, b.Phase⟩ := by
  induction c generalizing b with
  | zero => simp
  | succ c ih =>
    rw [Function.iterate_succ, Function.comp, ih]
    simp only [CustomBarrier.arriveFetchAdd, Nat.cast_add, Nat.cast_one]
    congr 1
    omega

theorem sweep_arrive (T k : Int) (hk : k < T) (n : Nat) (b : CustomBarrier) (m : MainPc)
    (rec : Int) :
    exec ⟨b, List.replicate n ⟨.loopHead, k⟩, m, rec, T⟩
        (sweepSched (fun i => [.worker i, .worker i]) 0 n)
      = ⟨⟨b.nThreads, b.Count + n, b.Phase⟩, List.replicate n ⟨.spinning, k⟩, m, rec, T⟩ := by
  have := sweep_workers T ⟨.loopHead, k⟩ ⟨.spinning, k⟩ CustomBarrier.arriveFetchAdd
    (fun _ => True) (fun i => [.worker i, .worker i]) (fun _ _ => trivial)
    (fun b l₁ l₂ m rec _ => by
      simp only [exec, List.foldl_cons, List.foldl_nil, step_worker_at]
      simp [workerStep, hk])
    n 0 b m rec trivial
  simpa [iterate_arriveFetchAdd] using this

theorem sweep_depart (T k : Int) (n : Nat) (b : CustomBarrier) (hb : b.Phase = k + 1)
    (m : MainPc) (rec : Int) :
    exec ⟨b, List.replicate n ⟨.spinning, k⟩, m, rec, T⟩
        (sweepSched (fun i => [.worker i, .worker i]) 0 n)
      = ⟨b, List.replicate n ⟨.loopHead, k + 1⟩, m, rec, T⟩ := by
  have := sweep_workers T ⟨.spinning, k⟩ ⟨.loopHead, k + 1⟩ id
    (fun b => b.Phase = k + 1) (fun i => [.worker i, .worker i]) (fun _ h => h)
    (fun b l₁ l₂ m rec hb => by
      simp only [exec, List.foldl_cons, List.foldl_nil, step_worker_at]
      simp [workerStep, CustomBarrier.arriveSpins, hb])
    n 0 b m rec hb
  simpa using this

theorem sweep_finish (T k : Int) (hk : ¬ k < T) (n : Nat) (b : CustomBarrier) (m : MainPc)
    (rec : Int) :
    exec ⟨b, List.replicate n ⟨.loopHead, k⟩, m, rec, T⟩
        (sweepSched (fun i => [.worker i]) 0 n)
      = ⟨b, List.replicate n ⟨.finished, k⟩, m, rec, T⟩ := by
  have := sweep_workers T ⟨.loopHead, k⟩ ⟨.finished, k⟩ id
    (fun _ => True) (fun i => [.worker i]) (fun _ _ => trivial)
    (fun b l₁ l₂ m rec _ => by
      simp only [exec, List.foldl_cons, List.foldl_nil, step_worker_at]
      simp [workerStep, hk])
    n 0 b m rec trivial
  simpa using this

theorem exec_roundSched (n : Nat) (T k : Int) (hk : k < T) :
    exec (roundState n T k) (roundSched n) = roundState n T (k + 1) := by
  simp only [roundSched, roundState, exec_append]
  rw [sweep_arrive T k hk]
  have hmain : exec ⟨⟨n, 0 + n, k⟩, List.replicate n ⟨.spinning, k⟩, .loopHead, k, T⟩
      [.main, .main, .main, .main, .main, .main]
      = ⟨⟨n, 0, k + 1⟩, List.replicate n ⟨.spinning, k⟩, .loopHead, k + 1, T⟩ := by
    simp [exec, step, mainStep, hk, CustomBarrier.waitAllSpins, CustomBarrier.releaseStore,
      CustomBarrier.releaseFetchAdd]
  rw [hmain, sweep_depart T k n _ rfl]

theorem exec_epochSched (n : Nat) (R : Nat) :
    ∀ (T k : Int), k + R = T →
      exec (roundState n T k) (epochSched n R)
        = ⟨⟨n, 0, T⟩, List.replicate n ⟨.finished, T⟩, .joined, T, T⟩ := by
  induction R with
  | zero =>
    intro T k hk
    have hkT : k = T := by simpa using hk
    subst hkT
    have hmain : exec (roundState n k k) [.main]
        = ⟨⟨n, 0, k⟩, List.replicate n ⟨.loopHead, k⟩, .joined, k, k⟩ := by
      simp [exec, step, mainStep, roundState]
    have : epochSched n 0 = [.main] ++ sweepSched (fun i => [.worker i]) 0 n := rfl
    rw [this, exec_append, hmain, sweep_finish k k (lt_irrefl k)]
  | succ R ih =>
    intro T k hk
    simp only [epochSched, exec_append]
    rw [exec_roundSched n T k (by push_cast at hk; omega)]
    exact ih T (k + 1) (by push_cast at hk; omega)

/-- Some interleaving completes the epoch: under the schedule `epochSched n R` the main thread
leaves its loop after `R` rounds and every worker has left its loop. -/
theorem exists_complete_run (n R : Nat) :
    (run n R (epochSched n R)).1
      = ⟨⟨n, 0, R⟩, List.replicate n ⟨.finished, R⟩, .joined, R, R⟩ := by
  rw [run, runFrom_fst]
  have : initState n R = roundState n R 0 := rfl
  rw [this]
  exact exec_epochSched n R R 0 (by simp)

theorem step_phase_mono (s : SyncState) (t : Thread) :
    s.barrier.Phase ≤ (step s t).1.barrier.Phase := by
  cases t with
  | main =>
    simp only [step, mainStep]
    cases s.mainPc <;> simp only [CustomBarrier.releaseFetchAdd, CustomBarrier.releaseStore] <;>
      (try split) <;> simp
  | worker id =>
    simp only [step]
    cases hw : s.workers[id]? with
    | none => simp
    | some w =>
      obtain ⟨pc, lr⟩ := w
      simp only [workerStep]
      cases pc <;> simp only [CustomBarrier.arriveFetchAdd] <;> (try split) <;> simp

/-- C1 (barrier rendezvous order). In the log of any interleaving of `n` workers and the main
thread, an event "worker `i` returns from `arrive(k)`" is preceded by the `Phase` increment
of `release()` for round `k`, and each statement of `release()` for round `k` is preceded by
the `Count` increment of `arrive(k)` of every one of the `n` workers. -/
theorem barrier_rendezvous_order (n : Nat) (R : Int) (sched : List Thread)
    (pre post : List Event) (e : Event) (h : (run n R sched).2 = pre ++ e :: post) :
    (∀ i k, e = .arriveReturn i k → Event.phaseInc k ∈ pre) ∧
    (∀ k, e = .countReset k ∨ e = .phaseInc k → ∀ i, i < n → Event.countInc i k ∈ pre) :=
  (good_run n R sched).order pre e post h

theorem barrier_rendezvous_order_witness :
    (run 1 1 [.worker 0, .worker 0, .main, .main, .main, .main, .main, .worker 0]).2
      = [.countInc 0 0, .allArrived 0, .countReset 0, .phaseInc 0] ++
          .arriveReturn 0 0 :: [] ∧
    ((∀ i k, Event.arriveReturn 0 0 = .arriveReturn i k →
        Event.phaseInc k ∈ [Event.countInc 0 0, .allArrived 0, .countReset 0, .phaseInc 0]) ∧
     (∀ k, Event.arriveReturn 0 0 = .countReset k ∨ Event.arriveReturn 0 0 = .phaseInc k →
        ∀ i, i < 1 →
          Event.countInc i k ∈ [Event.countInc 0 0, .allArrived 0, .countReset 0, .phaseInc 0])) :=
  ⟨by decide,
    barrier_rendezvous_order 1 1
      [.worker 0, .worker 0, .main, .main, .main, .main, .main, .worker 0]
      [.countInc 0 0, .allArrived 0, .countReset 0, .phaseInc 0] [] (.arriveReturn 0 0)
      (by decide)⟩

/-- C3 (barrier counter invariant). In every state reached by any interleaving,
`0 ≤ Count ≤ n`, and no step of any thread decreases `Phase`. -/
theorem barrier_counter_invariant (n : Nat) (T : Int) (sched : List Thread) :
    0 ≤ (run n T sched).1.barrier.Count ∧ (run n T sched).1.barrier.Count ≤ n ∧
    ∀ t, (run n T sched).1.barrier.Phase ≤ (step (run n T sched).1 t).1.barrier.Phase := by
  have hg := good_run n T sched
  have hc := hg.inv.count
  have hle : (run n T sched).1.workers.countP (parkedAt (run n T sched).1.barrier.Phase)
      ≤ (run n T sched).1.workers.length := List.countP_le_length _
  rw [hg.len] at hle
  refine ⟨?_, ?_, fun t => step_phase_mono _ t⟩
  · rw [hc]; split <;> simp
  · rw [hc]; split <;> simp [hle]

/-- C4 (no lost or duplicated rounds). Under any interleaving: whenever a step completes a
`release()` (executes its `Phase.fetch_add`), the state right after that step has `Count = 0`
and `Phase = k`, where `k` counts the `release()` calls completed so far (this one included);
and once the main thread has left its loop of `R` rounds, the log holds exactly `R` phase
increments and exactly `R` "all arrived" observations of `waitAll()`; and some interleaving
(the round-robin schedule `epochSched n R`) does let the main thread leave its loop. -/
theorem no_lost_or_duplicated_rounds (n R : Nat) (sched : List Thread) :
    (∀ t r, (step (run n R sched).1 t).2 = some (.phaseInc r) →
      (logStep (run n R sched) t).1.barrier.Count = 0 ∧
      (logStep (run n R sched) t).1.barrier.Phase = phaseIncs (logStep (run n R sched) t).2 ∧
      r + 1 = phaseIncs (logStep (run n R sched) t).2) ∧
    ((run n R sched).1.mainPc = .joined →
      phaseIncs (run n R sched).2 = R ∧ observations (run n R sched).2 = R) ∧
    (run n R (epochSched n R)).1.mainPc = .joined := by
  have hg := good_run n R sched
  refine ⟨?_, ?_, by rw [exists_complete_run]⟩
  · intro t r hev
    have hg' := good_logStep n R _ t hg
    obtain ⟨ht, hpc, hrec⟩ := step_phaseInc _ t r hev
    subst ht
    have hcnt : (logStep (run n R sched) .main).1.barrier.Count = 0 := by
      have := hg.inv.count
      simp only [hpc, if_true] at this
      simp [logStep, step, mainStep, hpc, CustomBarrier.releaseFetchAdd, this]
    have hph : (logStep (run n R sched) .main).1.barrier.Phase = r + 1 := by
      have := hg.inv.phase
      simp only [hpc] at this
      simp [logStep, step, mainStep, hpc, CustomBarrier.releaseFetchAdd, this, hrec]
    have := hg'.log.phase_count
    exact ⟨hcnt, this.symm, by omega⟩
  · intro hj
    have h1 := hg.inv.joined hj
    have h2 := hg.inv.record_le
    have h3 := hg.inv.phase
    have h4 := hg.log.phase_count
    have h5 := hg.log.obs_count
    have h6 := hg.recs
    simp only [hj] at h3 h5
    simp at h3 h5
    rw [h6] at h1 h2
    constructor <;> omega

theorem no_lost_or_duplicated_rounds_witness :
    (run 1 1 [.worker 0, .worker 0, .main, .main, .main, .main, .main, .main, .main]).1.mainPc
      = .joined ∧
    phaseIncs (run 1 1 [.worker 0, .worker 0, .main, .main, .main, .main, .main, .main, .main]).2
      = 1 ∧
    observations (run 1 1 [.worker 0, .worker 0, .main, .main, .main, .main, .main, .main, .main]).2
      = 1 :=
  ⟨by decide,
    (no_lost_or_duplicated_rounds 1 1
      [.worker 0, .worker 0, .main, .main, .main, .main, .main, .main, .main]).2.1
      (by decide)⟩

/-- C5 as stated fails: after worker 0 has executed the `Count.fetch_add` of `arrive(0)` and
before the main thread releases, `local_round = Phase = 0` although the worker has already
arrived for record 0. -/
theorem local_phase_iff_counterexample :
    (run 1 1 [.worker 0, .worker 0]).1.workers = [⟨.spinning, 0⟩] ∧
    (run 1 1 [.worker 0, .worker 0]).1.barrier.Phase = 0 ∧
    (run 1 1 [.worker 0, .worker 0]).1.barrier.Count = 1 ∧
    (run 1 1 [.worker 0, .worker 0]).2 = [.countInc 0 0] ∧
    ¬ ((0 : Int) = (run 1 1 [.worker 0, .worker 0]).1.barrier.Phase ↔
        Event.countInc 0 0 ∉ (run 1 1 [.worker 0, .worker 0]).2) := by
  decide

/-- C5 (amended local-phase invariant). In every reachable state and for every worker:
if the worker has not yet executed the `Count` increment of `arrive(local_round)` then
`local_round = Phase`; `local_round = Phase` holds exactly as long as the main thread has not
executed the `Phase` increment of `release()` for round `local_round`; and `Phase` is always
`local_round` or `local_round + 1`. -/
theorem local_phase_invariant (n : Nat) (T : Int) (sched : List Thread) (i : Nat)
    (w : WorkerState) (hw : (run n T sched).1.workers[i]? = some w) :
    (Event.countInc i w.local_round ∉ (run n T sched).2 →
      w.local_round = (run n T sched).1.barrier.Phase) ∧
    (w.local_round = (run n T sched).1.barrier.Phase ↔
      Event.phaseInc w.local_round ∉ (run n T sched).2) ∧
    ((run n T sched).1.barrier.Phase = w.local_round ∨
      (run n T sched).1.barrier.Phase = w.local_round + 1) := by
  have hg := good_run n T sched
  have hok := hg.inv.workers w (List.getElem?_mem hw)
  have hlog := hg.log.inc_logged i w hw w.local_round hok.1
  have hp1 := hg.log.phase_logged w.local_round hok.1
  have hp2 := hg.log.phase_sound w.local_round
  obtain ⟨pc, lr⟩ := w
  simp only [WorkerOK] at hok hp1 hp2 ⊢
  unfold arrivedAt at hlog
  refine ⟨?_, ?_, ?_⟩
  · intro hnot
    cases pc <;> simp only at hok
    · exact hok.2
    · exact hok.2.1
    · exact absurd (hlog (Or.inr ⟨rfl, Or.inl rfl⟩)) hnot
    · exact absurd (hlog (Or.inr ⟨rfl, Or.inr rfl⟩)) hnot
    · exact hok.2.1
  · constructor
    · intro heq hmem
      have := (hp2 hmem).2
      omega
    · intro hnot
      by_contra hne
      apply hnot
      apply hp1
      cases pc <;> simp only at hok <;> omega
  · cases pc <;> simp only at hok <;> omega

theorem local_phase_invariant_witness :
    (run 1 1 [.worker 0, .worker 0, .main, .main, .main, .main, .main]).1.workers[0]?
      = some ⟨.spinning, 0⟩ ∧
    ((Event.countInc 0 0 ∉ (run 1 1 [.worker 0, .worker 0, .main, .main, .main, .main, .main]).2 →
      (0 : Int) = (run 1 1 [.worker 0, .worker 0, .main, .main, .main, .main, .main]).1.barrier.Phase) ∧
    ((0 : Int) = (run 1 1 [.worker 0, .worker 0, .main, .main, .main, .main, .main]).1.barrier.Phase ↔
      Event.phaseInc 0 ∉ (run 1 1 [.worker 0, .worker 0, .main, .main, .main, .main, .main]).2) ∧
    ((run 1 1 [.worker 0, .worker 0, .main, .main, .main, .main, .main]).1.barrier.Phase = 0 ∨
      (run 1 1 [.worker 0, .worker 0, .main, .main, .main, .main, .main]).1.barrier.Phase = 0 + 1)) :=
  ⟨by decide,
    local_phase_invariant 1 1 [.worker 0, .worker 0, .main, .main, .main, .main, .main] 0
      ⟨.spinning, 0⟩ (by decide)⟩

theorem threadBlock_eq (bs i : Nat) : threadBlock bs i = List.range' (i * bs) bs := by
  unfold threadBlock
  congr 1
  rw [Nat.succ_mul]
  omega

theorem mem_threadBlock (bs i j : Nat) :
    j ∈ threadBlock bs i ↔ i * bs ≤ j ∧ j < (i + 1) * bs := by
  rw [threadBlock_eq, List.mem_range'_1, Nat.succ_mul]

theorem length_threadBlock (bs i : Nat) : (threadBlock bs i).length = bs := by
  rw [threadBlock_eq, List.length_range']

theorem nodup_threadBlock (bs i : Nat) : (threadBlock bs i).Nodup := by
  rw [threadBlock_eq]
  exact List.nodup_range' _ _

theorem length_dispatch (S n : Nat) : (dispatch S n).length = n := by
  simp [dispatch]

theorem mem_dispatch (S n : Nat) (b : List Nat) :
    b ∈ dispatch S n ↔ ∃ i, i < n ∧ b = threadBlock (S / n) i := by
  simp only [dispatch, List.mem_map, List.mem_range]
  constructor
  · rintro ⟨i, hi, rfl⟩; exact ⟨i, hi, rfl⟩
  · rintro ⟨i, hi, rfl⟩; exact ⟨i, hi, rfl⟩

/-- A shard number lies in some block of `m` workers iff it is below `m * bs`. -/
theorem covered_iff (bs m j : Nat) :
    (∃ i, i < m ∧ j ∈ threadBlock bs i) ↔ j < m * bs := by
  constructor
  · rintro ⟨i, hi, hj⟩
    rw [mem_threadBlock] at hj
    calc j < (i + 1) * bs := hj.2
      _ ≤ m * bs := Nat.mul_le_mul_right bs hi
  · intro hj
    have hbs : 0 < bs := by
      rcases Nat.eq_zero_or_pos bs with h | h
      · subst h; simp at hj
      · exact h
    refine ⟨j / bs, ?_, ?_⟩
    · exact (Nat.div_lt_iff_lt_mul hbs).mpr hj
    · rw [mem_threadBlock]
      constructor
      · exact Nat.div_mul_le_self j bs
      · have := Nat.lt_mul_div_succ j hbs
        rwa [Nat.mul_comm] at this

theorem threadBlock_disjoint (bs i i' j : Nat) (h : j ∈ threadBlock bs i)
    (h' : j ∈ threadBlock bs i') : i = i' := by
  rw [mem_threadBlock] at h h'
  rcases Nat.lt_trichotomy i i' with hlt | heq | hgt
  · have : (i + 1) * bs ≤ i' * bs := Nat.mul_le_mul_right bs hlt
    omega
  · exact heq
  · have : (i' + 1) * bs ≤ i * bs := Nat.mul_le_mul_right bs hgt
    omega

theorem getElem?_dispatch (S n i : Nat) (hi : i < n) :
    (dispatch S n)[i]? = some (threadBlock (S / n) i) := by
  simp [dispatch, List.getElem?_map, List.getElem?_range hi]

/-- C2 (partition exhaustiveness and disjointness). For `n ≥ 1` workers and a shard count `S`
divisible by `n`, `Training` builds `n` blocks; block `i` is the run of `S / n` consecutive
shard numbers starting at `i * (S / n)`, i.e. exactly the `j` with
`i * (S / n) ≤ j < (i + 1) * (S / n)`; every shard number below `S` lies in exactly one block,
and no block holds a number outside `[0, S)`. -/
theorem partition_exhaustive_disjoint (S n : Nat) (_hn : 1 ≤ n) (hdiv : n ∣ S) :
    (dispatch S n).length = n ∧
    (∀ i, i < n → (dispatch S n)[i]? = some (List.range' (i * (S / n)) (S / n))) ∧
    (∀ i, i < n → (threadBlock (S / n) i).length = S / n) ∧
    (∀ i j, j ∈ threadBlock (S / n) i ↔ i * (S / n) ≤ j ∧ j < (i + 1) * (S / n)) ∧
    (∀ j, j < S → ∃! i, i < n ∧ j ∈ threadBlock (S / n) i) ∧
    (∀ i, i < n → ∀ j, j ∈ threadBlock (S / n) i → j < S) := by
  have hS : n * (S / n) = S := Nat.mul_div_cancel' hdiv
  refine ⟨length_dispatch S n, ?_, ?_, ?_, ?_, ?_⟩
  · intro i hi
    rw [getElem?_dispatch S n i hi, threadBlock_eq]
  · intro i _
    exact length_threadBlock _ _
  · intro i j
    exact mem_threadBlock _ _ _
  · intro j hj
    obtain ⟨i, hi, hmem⟩ := (covered_iff (S / n) n j).mpr (by rw [hS]; exact hj)
    refine ⟨i, ⟨hi, hmem⟩, ?_⟩
    rintro i' ⟨_, hmem'⟩
    exact threadBlock_disjoint _ _ _ _ hmem' hmem
  · intro i hi j hmem
    have := (covered_iff (S / n) n j).mp ⟨i, hi, hmem⟩
    rwa [hS] at this

theorem partition_exhaustive_disjoint_witness :
    (1 ≤ 16 ∧ 16 ∣ 208) ∧
    ((dispatch 208 16).length = 16 ∧
    (∀ i, i < 16 → (dispatch 208 16)[i]? = some (List.range' (i * (208 / 16)) (208 / 16))) ∧
    (∀ i, i < 16 → (threadBlock (208 / 16) i).length = 208 / 16) ∧
    (∀ i j, j ∈ threadBlock (208 / 16) i ↔ i * (208 / 16) ≤ j ∧ j < (i + 1) * (208 / 16)) ∧
    (∀ j, j < 208 → ∃! i, i < 16 ∧ j ∈ threadBlock (208 / 16) i) ∧
    (∀ i, i < 16 → ∀ j, j ∈ threadBlock (208 / 16) i → j < 208)) :=
  ⟨⟨by decide, by decide⟩, partition_exhaustive_disjoint 208 16 (by decide) (by decide)⟩

theorem foldl_add_range (f : Nat → ℚ) (n : Nat) :
    (List.range n).foldl (fun model t => model + f t) 0 = ∑ t ∈ Finset.range n, f t := by
  induction n with
  | zero => simp
  | succ n ih => rw [List.range_succ, List.foldl_append, ih, Finset.sum_range_succ]; rfl

theorem serialBlock_eq (THREADS : Nat) (P : Nat → ℚ) (target : ℚ) :
    serialBlock THREADS P target = target - ∑ t ∈ Finset.range THREADS, P t := by
  unfold serialBlock
  rw [foldl_add_range]

/-- The compute loop of one worker over a run of consecutive shards `a, a+1, ..., a+len-1`. -/
theorem compute_fold_range' {U : Type} (ops : UnivariatePLOps U) (features : Nat → ℚ)
    (A : Addends U) (len : Nat) :
    ∀ (a : Nat) (m0 : ℚ) (A0 : Addends U), (∀ k, a ≤ k → A0 k = A k) →
    (List.range' a len).foldl
      (fun (acc : ℚ × Addends U) j =>
        let c := (acc.2 j).ComputeUsingInput ops features false
        (acc.1 + c.1, Function.update acc.2 j c.2))
      (m0, A0)
    = (m0 + ∑ i ∈ Finset.range len, ((A (a + i)).ComputeUsingInput ops features false).1,
        fun k => if a ≤ k ∧ k < a + len then ((A k).ComputeUsingInput ops features false).2
          else A0 k) := by
  induction len with
  | zero =>
    intro a m0 A0 _
    simp
    funext k
    rw [if_neg (by omega)]
  | succ len ih =>
    intro a m0 A0 hA
    rw [List.range'_succ, List.foldl_cons]
    simp only
    rw [ih (a + 1)]
    · rw [hA a (le_refl a), Finset.sum_range_succ']
      congr 1
      · simp only [Nat.add_zero]
        have : ∀ i, a + 1 + i = a + (i + 1) := fun i => by omega
        simp only [this]
        ring
      · funext k
        by_cases hk : k = a
        · subst hk
          simp
        · simp only [Function.update_noteq hk]
          by_cases h1 : a + 1 ≤ k ∧ k < a + 1 + len
          · rw [if_pos h1, if_pos (by omega)]
          · rw [if_neg h1, if_neg (by omega)]
    · intro k hk
      rw [Function.update_noteq (by omega), hA k (by omega)]

/-- The compute phase of the first `m` workers with blocks of `bs` shards. -/
theorem compute_all {U : Type} (ops : UnivariatePLOps U) (features : Nat → ℚ) (bs : Nat)
    (A : Addends U) (P0 : Nat → ℚ) (m : Nat) :
    (List.range m).foldl
      (fun st i => workerCompute ops i (threadBlock bs i) features st) (A, P0)
    = (fun k => if k < m * bs then ((A k).ComputeUsingInput ops features false).2 else A k,
        fun t => if t < m then
          ∑ i ∈ Finset.range bs, ((A (t * bs + i)).ComputeUsingInput ops features false).1
          else P0 t) := by
  induction m with
  | zero => simp
  | succ m ih =>
    rw [List.range_succ, List.foldl_append, ih]
    simp only [List.foldl_cons, List.foldl_nil, workerCompute, threadBlock_eq]
    rw [compute_fold_range' ops features A bs (m * bs) 0 _
      (fun k hk => by rw [if_neg (by omega)])]
    simp only [zero_add]
    congr 1
    · funext k
      rw [Nat.succ_mul]
      by_cases h1 : m * bs ≤ k ∧ k < m * bs + bs
      · rw [if_pos h1, if_pos h1.2]
      · rw [if_neg h1]
        by_cases h2 : k < m * bs
        · rw [if_pos h2, if_pos (by omega)]
        · rw [if_neg h2, if_neg (by omega)]
    · funext t
      by_cases ht : t = m
      · subst ht
        simp
      · rw [Function.update_noteq ht]
        by_cases h2 : t < m
        · rw [if_pos h2, if_pos (by omega)]
        · rw [if_neg h2, if_neg (by omega)]

/-- The update loop of one worker over a run of consecutive shards. -/
theorem update_fold_range' {U : Type} (ops : UnivariatePLOps U) (sig : ℚ) (len : Nat) :
    ∀ (a : Nat) (A0 : Addends U) (L0 : List (Nat × ℚ)),
    (List.range' a len).foldl
      (fun (acc : Addends U × List (Nat × ℚ)) j =>
        (Function.update acc.1 j ((acc.1 j).UpdateUsingMemory ops sig), acc.2 ++ [(j, sig)]))
      (A0, L0)
    = (fun k => if a ≤ k ∧ k < a + len then (A0 k).UpdateUsingMemory ops sig else A0 k,
        L0 ++ (List.range' a len).map (fun j => (j, sig))) := by
  induction len with
  | zero =>
    intro a A0 L0
    simp
    funext k
    rw [if_neg (by omega)]
  | succ len ih =>
    intro a A0 L0
    rw [List.range'_succ, List.foldl_cons]
    simp only
    rw [ih (a + 1)]
    congr 1
    · funext k
      by_cases hk : k = a
      · subst hk
        simp
      · simp only [Function.update_noteq hk]
        by_cases h1 : a + 1 ≤ k ∧ k < a + 1 + len
        · rw [if_pos h1, if_pos (by omega)]
        · rw [if_neg h1, if_neg (by omega)]
    · simp

/-- The update phase of the first `m` workers with blocks of `bs` shards. -/
theorem update_all {U : Type} (ops : UnivariatePLOps U) (RESIDUAL mu : ℚ) (bs : Nat)
    (A : Addends U) (m : Nat) :
    (List.range m).foldl
      (fun st i => workerUpdate ops (threadBlock bs i) RESIDUAL mu st) (A, [])
    = (fun k => if k < m * bs then (A k).UpdateUsingMemory ops (workerSignal RESIDUAL mu)
          else A k,
        (List.range (m * bs)).map (fun j => (j, workerSignal RESIDUAL mu))) := by
  induction m with
  | zero => simp
  | succ m ih =>
    rw [List.range_succ, List.foldl_append, ih]
    simp only [List.foldl_cons, List.foldl_nil, workerUpdate, threadBlock_eq]
    rw [update_fold_range' ops (workerSignal RESIDUAL mu) bs (m * bs)]
    congr 1
    · funext k
      rw [Nat.succ_mul]
      by_cases h1 : m * bs ≤ k ∧ k < m * bs + bs
      · rw [if_pos h1, if_pos h1.2, if_neg (by omega)]
      · rw [if_neg h1]
        by_cases h2 : k < m * bs
        · rw [if_pos h2, if_pos (by omega)]
        · rw [if_neg h2, if_neg (by omega)]
    · rw [← List.map_append]
      congr 1
      rw [Nat.succ_mul, List.range_eq_range', List.range_eq_range']
      have := List.range'_append_1 0 (m * bs) bs
      simp only [zero_add] at this
      rw [this, Nat.add_comm]

theorem sum_blocks (V : Nat → ℚ) (bs m : Nat) :
    ∑ t ∈ Finset.range m, ∑ i ∈ Finset.range bs, V (t * bs + i)
      = ∑ j ∈ Finset.range (m * bs), V j := by
  induction m with
  | zero => simp
  | succ m ih => rw [Finset.sum_range_succ, ih, Nat.succ_mul, Finset.sum_range_add]

theorem syncRound_eq {U : Type} (ops : UnivariatePLOps U) (S n : Nat) (mu : ℚ)
    (features : Nat → ℚ) (target : ℚ) (addends : Addends U) (P0 : Nat → ℚ) :
    (syncRound ops S n mu features target addends P0).RESIDUAL
      = target - ∑ j ∈ Finset.range (n * (S / n)),
          ((addends j).ComputeUsingInput ops features false).1 ∧
    (syncRound ops S n mu features target addends P0).calls
      = (List.range (n * (S / n))).map (fun j =>
          (j, workerSignal (syncRound ops S n mu features target addends P0).RESIDUAL mu)) ∧
    (syncRound ops S n mu features target addends P0).addends
      = fun k => if k < n * (S / n) then
          (((addends k).ComputeUsingInput ops features false).2).UpdateUsingMemory ops
            (workerSignal (syncRound ops S n mu features target addends P0).RESIDUAL mu)
        else addends k := by
  have hres : (syncRound ops S n mu features target addends P0).RESIDUAL
      = target - ∑ j ∈ Finset.range (n * (S / n)),
          ((addends j).ComputeUsingInput ops features false).1 := by
    simp only [syncRound, compute_all, serialBlock_eq]
    rw [← sum_blocks]
    congr 1
    apply Finset.sum_congr rfl
    intro t ht
    rw [if_pos (Finset.mem_range.mp ht)]
  refine ⟨hres, ?_, ?_⟩
  · simp only [syncRound, compute_all, update_all]
  · simp only [syncRound, compute_all, update_all]
    funext k
    by_cases hk : k < n * (S / n)
    · simp only [if_pos hk]
    · simp only [if_neg hk]

/-- C8 as stated fails: with 3 shards and 2 workers (2 does not divide 3) the DISPATCH code
reports nothing and starts both workers, on blocks `[0]` and `[1]`; shard 2 is in no block,
and the round goes on to call `UpdateUsingMemory` on shards 0 and 1. -/
theorem divisibility_check_counterexample :
    ¬ (2 ∣ 3) ∧ dispatch 3 2 = [[0], [1]] ∧ (dispatch 3 2).length ≠ 0 ∧
    (syncRound linearStub 3 2 (scaledMu (1 / 10) 3) (fun _ => 1) 5 stubAddends
      (fun _ => 0)).calls.map Prod.fst = [0, 1] := by
  refine ⟨by decide, by decide, by decide, ?_⟩
  rw [(syncRound_eq linearStub 3 2 _ _ _ _ _).2.1]
  decide

/-- C8 (amended). `Training` performs no divisibility check: for every shard count `S` and
worker count `n ≥ 1` it starts all `n` workers, worker `i` on the block of `S / n` (rounded
down) consecutive shards starting at `i * (S / n)`; the shards that belong to a worker are
exactly those numbered below `n * (S / n)`, so when `n` does not divide `S` the trailing
shards `n * (S / n) .. S - 1` (at least one) belong to no worker, and a synchronised round
leaves them unchanged. -/
theorem dispatch_without_divisibility_check {U : Type} (ops : UnivariatePLOps U) (S n : Nat)
    (_hn : 1 ≤ n) (mu : ℚ) (features : Nat → ℚ) (target : ℚ) (addends : Addends U)
    (P0 : Nat → ℚ) :
    (dispatch S n).length = n ∧
    (∀ i, i < n → (dispatch S n)[i]? = some (List.range' (i * (S / n)) (S / n))) ∧
    (∀ b, b ∈ dispatch S n → b.length = S / n) ∧
    (∀ j, (∃ b, b ∈ dispatch S n ∧ j ∈ b) ↔ j < n * (S / n)) ∧
    (¬ n ∣ S → n * (S / n) < S) ∧
    (∀ j, n * (S / n) ≤ j →
      (syncRound ops S n mu features target addends P0).addends j = addends j) := by
  refine ⟨length_dispatch S n, ?_, ?_, ?_, ?_, ?_⟩
  · intro i hi
    rw [getElem?_dispatch S n i hi, threadBlock_eq]
  · intro b hb
    obtain ⟨i, _, rfl⟩ := (mem_dispatch S n b).mp hb
    exact length_threadBlock _ _
  · intro j
    rw [← covered_iff]
    constructor
    · rintro ⟨b, hb, hj⟩
      obtain ⟨i, hi, rfl⟩ := (mem_dispatch S n b).mp hb
      exact ⟨i, hi, hj⟩
    · rintro ⟨i, hi, hj⟩
      exact ⟨_, (mem_dispatch S n _).mpr ⟨i, hi, rfl⟩, hj⟩
  · intro hnd
    have h1 : n * (S / n) ≤ S := Nat.mul_div_le S n
    rcases Nat.lt_or_eq_of_le h1 with h | h
    · exact h
    · exact absurd ⟨S / n, h.symm⟩ hnd
  · intro j hj
    rw [(syncRound_eq ops S n mu features target addends P0).2.2]
    simp only [if_neg (Nat.not_lt.mpr hj)]

theorem dispatch_without_divisibility_check_witness :
    (1 ≤ 2) ∧
    ((dispatch 3 2).length = 2 ∧
    (∀ i, i < 2 → (dispatch 3 2)[i]? = some (List.range' (i * (3 / 2)) (3 / 2))) ∧
    (∀ b, b ∈ dispatch 3 2 → b.length = 3 / 2) ∧
    (∀ j, (∃ b, b ∈ dispatch 3 2 ∧ j ∈ b) ↔ j < 2 * (3 / 2)) ∧
    (¬ 2 ∣ 3 → 2 * (3 / 2) < 3) ∧
    (∀ j, 2 * (3 / 2) ≤ j →
      (syncRound linearStub 3 2 (scaledMu (1 / 10) 3) (fun _ => 1) 5 stubAddends
        (fun _ => 0)).addends j = stubAddends j)) :=
  ⟨by decide,
    dispatch_without_divisibility_check linearStub 3 2 (by decide) (scaledMu (1 / 10) 3)
      (fun _ => 1) 5 stubAddends (fun _ => 0)⟩

/-- C7 (effective update signal). In one synchronised round with `n ≥ 1` workers and `S`
shards, `n` dividing `S`, and `Worker` called with `mu0 / S`: the `UpdateUsingMemory` calls
made are exactly one per shard `j < S`, all with the same argument
`(mu0 / S) * (target - Σ_{j<S} ComputeUsingInput_j(record))`, and shard `j` ends in the state
obtained by that one update after its compute. -/
theorem effective_update_signal {U : Type} (ops : UnivariatePLOps U) (S n : Nat)
    (_hn : 1 ≤ n) (hdiv : n ∣ S) (mu0 : ℚ) (features : Nat → ℚ) (target : ℚ)
    (addends : Addends U) (P0 : Nat → ℚ) :
    (syncRound ops S n (scaledMu mu0 S) features target addends P0).calls
      = (List.range S).map (fun j => (j, expectedSignal ops S mu0 features target addends)) ∧
    (∀ j, j < S →
      ((syncRound ops S n (scaledMu mu0 S) features target addends P0).calls.map
        Prod.fst).count j = 1) ∧
    (∀ c, c ∈ (syncRound ops S n (scaledMu mu0 S) features target addends P0).calls →
      c.1 < S ∧ c.2 = expectedSignal ops S mu0 features target addends) ∧
    (∀ j, j < S →
      (syncRound ops S n (scaledMu mu0 S) features target addends P0).addends j
        = (((addends j).ComputeUsingInput ops features false).2).UpdateUsingMemory ops
            (expectedSignal ops S mu0 features target addends)) := by
  have hS : n * (S / n) = S := Nat.mul_div_cancel' hdiv
  obtain ⟨h1, h2, h3⟩ := syncRound_eq ops S n (scaledMu mu0 S) features target addends P0
  rw [hS] at h1 h2 h3
  have hsig : workerSignal
      (syncRound ops S n (scaledMu mu0 S) features target addends P0).RESIDUAL
      (scaledMu mu0 S) = expectedSignal ops S mu0 features target addends := by
    rw [h1]
    simp only [workerSignal, scaledMu, expectedSignal]
    ring
  rw [hsig] at h2 h3
  refine ⟨h2, ?_, ?_, ?_⟩
  · intro j hj
    rw [h2, List.map_map]
    have : (Prod.fst ∘ fun j => (j, expectedSignal ops S mu0 features target addends))
        = (id : Nat → Nat) := by
      funext x; rfl
    rw [this, List.map_id]
    exact List.count_eq_one_of_mem (List.nodup_range S) (List.mem_range.mpr hj)
  · intro c hc
    rw [h2] at hc
    obtain ⟨j, hj, rfl⟩ := List.mem_map.mp hc
    exact ⟨List.mem_range.mp hj, rfl⟩
  · intro j hj
    rw [h3]
    simp only [if_pos hj]

theorem effective_update_signal_witness :
    (1 ≤ 2 ∧ 2 ∣ 4) ∧
    ((syncRound linearStub 4 2 (scaledMu (1 / 10) 4) (fun _ => 1) 5 stubAddends
        (fun _ => 0)).calls
      = (List.range 4).map
          (fun j => (j, expectedSignal linearStub 4 (1 / 10) (fun _ => 1) 5 stubAddends)) ∧
    (∀ j, j < 4 →
      ((syncRound linearStub 4 2 (scaledMu (1 / 10) 4) (fun _ => 1) 5 stubAddends
        (fun _ => 0)).calls.map Prod.fst).count j = 1) ∧
    (∀ c, c ∈ (syncRound linearStub 4 2 (scaledMu (1 / 10) 4) (fun _ => 1) 5 stubAddends
        (fun _ => 0)).calls →
      c.1 < 4 ∧ c.2 = expectedSignal linearStub 4 (1 / 10) (fun _ => 1) 5 stubAddends) ∧
    (∀ j, j < 4 →
      (syncRound linearStub 4 2 (scaledMu (1 / 10) 4) (fun _ => 1) 5 stubAddends
        (fun _ => 0)).addends j
        = (((stubAddends j).ComputeUsingInput linearStub (fun _ => 1) false).2).UpdateUsingMemory
            linearStub (expectedSignal linearStub 4 (1 / 10) (fun _ => 1) 5 stubAddends))) :=
  ⟨⟨by decide, by decide⟩,
    effective_update_signal linearStub 4 2 (by decide) (by decide) (1 / 10) (fun _ => 1) 5
      stubAddends (fun _ => 0)⟩

/-- C6 as stated fails: with 4 workers whose partial models are all 0, the code's learning
rate `0.1` and 8 shards, the serial block stores the raw errors `[1, 2, -1]` for the targets
`[1, 2, -1]`, not these values times `mu / S` (nor times `mu`). -/
theorem residual_value_counterexample :
    [1, 2, -1].map (serialBlock 4 (fun _ => 0)) = [1, 2, -1] ∧
    [1, 2, -1].map (serialBlock 4 (fun _ => 0))
      ≠ [1 * scaledMu (1 / 10) 8, 2 * scaledMu (1 / 10) 8, -1 * scaledMu (1 / 10) 8] ∧
    [1, 2, -1].map (serialBlock 4 (fun _ => 0)) ≠ [1 * (1 / 10), 2 * (1 / 10), -1 * (1 / 10)] ∧
    serialBlock 4 (fun _ => 0) 1
      ≠ scaledMu (1 / 10) 8 * (1 - ∑ t ∈ Finset.range 4, (fun _ => (0 : ℚ)) t) := by
  simp [serialBlock_eq, scaledMu]
  norm_num

/-- C6 (amended). For every record, the value the serial block stores into `RESIDUAL` is the
raw error `target - Σ_t PARTIAL_MODELS[t]`; the scaling happens in `Worker`, whose update
signal `RESIDUAL * mu` (with `mu` the learning rate pre-divided by the shard count) equals
`(mu0 / S) * (target - Σ_t PARTIAL_MODELS[t])`. In particular, with all partial models 0 and
targets `[1, 2, -1]` the stored values are `[1, 2, -1]` and the workers' signals are
`[1 * (mu0 / S), 2 * (mu0 / S), -1 * (mu0 / S)]`. -/
theorem residual_value (THREADS S : Nat) (PARTIAL_MODELS : Nat → ℚ) (target mu0 : ℚ) :
    serialBlock THREADS PARTIAL_MODELS target
      = target - ∑ t ∈ Finset.range THREADS, PARTIAL_MODELS t ∧
    workerSignal (serialBlock THREADS PARTIAL_MODELS target) (scaledMu mu0 S)
      = (mu0 / S) * (target - ∑ t ∈ Finset.range THREADS, PARTIAL_MODELS t) ∧
    [1, 2, -1].map (serialBlock THREADS (fun _ => 0)) = [1, 2, -1] ∧
    [1, 2, -1].map (fun y => workerSignal (serialBlock THREADS (fun _ => 0) y) (scaledMu mu0 S))
      = [1 * (mu0 / S), 2 * (mu0 / S), -1 * (mu0 / S)] := by
  refine ⟨serialBlock_eq _ _ _, ?_, ?_, ?_⟩
  · rw [serialBlock_eq]
    simp only [workerSignal, scaledMu]
    ring
  · simp [serialBlock_eq]
  · simp [serialBlock_eq, workerSignal, scaledMu]

theorem epochLoop_stop {σ : Type} (runEpoch : σ → ℚ × σ) (t : ℚ) (s0 : σ) :
    ∀ (d fuel e : Nat), d < fuel →
      pearsonOf runEpoch s0 (e + d) > t →
      (∀ j, j < d → ¬ pearsonOf runEpoch s0 (e + j) > t) →
      epochLoop runEpoch t fuel e (stateAfter runEpoch s0 e)
        = (stateAfter runEpoch s0 (e + d + 1), e + d + 1) := by
  intro d
  induction d with
  | zero =>
    intro fuel e hf hp _
    obtain ⟨fuel, rfl⟩ : ∃ f, fuel = f + 1 := ⟨fuel - 1, by omega⟩
    simp only [Nat.add_zero] at hp ⊢
    simp only [epochLoop]
    have hp' : (runEpoch (stateAfter runEpoch s0 e)).1 > t := hp
    rw [if_pos hp']
    rfl
  | succ d ih =>
    intro fuel e hf hp hnot
    obtain ⟨fuel, rfl⟩ : ∃ f, fuel = f + 1 := ⟨fuel - 1, by omega⟩
    have h0 : ¬ pearsonOf runEpoch s0 e > t := by
      have := hnot 0 (by omega)
      simpa using this
    simp only [epochLoop]
    have h0' : ¬ (runEpoch (stateAfter runEpoch s0 e)).1 > t := h0
    rw [if_neg h0']
    have := ih fuel (e + 1) (by omega) (by rwa [show e + 1 + d = e + (d + 1) by omega])
      (fun j hj => by
        rw [show e + 1 + j = e + (j + 1) by omega]
        exact hnot (j + 1) (by omega))
    rw [show e + 1 + d + 1 = e + (d + 1) + 1 by omega] at this
    exact this

theorem epochLoop_exhaust {σ : Type} (runEpoch : σ → ℚ × σ) (t : ℚ) (s0 : σ) :
    ∀ (fuel e : Nat),
      (∀ j, j < fuel → ¬ pearsonOf runEpoch s0 (e + j) > t) →
      epochLoop runEpoch t fuel e (stateAfter runEpoch s0 e)
        = (stateAfter runEpoch s0 (e + fuel), e + fuel) := by
  intro fuel
  induction fuel with
  | zero => intro e _; rfl
  | succ fuel ih =>
    intro e hnot
    have h0 : ¬ pearsonOf runEpoch s0 e > t := by
      have := hnot 0 (by omega)
      simpa using this
    simp only [epochLoop]
    have h0' : ¬ (runEpoch (stateAfter runEpoch s0 e)).1 > t := h0
    rw [if_neg h0']
    have := ih (e + 1) (fun j hj => by
      rw [show e + 1 + j = e + (j + 1) by omega]
      exact hnot (j + 1) (by omega))
    rw [show e + 1 + fuel = e + (fuel + 1) by omega] at this
    exact this

/-- C9 (early termination). With `p_k` the validation correlation of epoch `k` and `t` the
threshold: if `k < 16` is the least index with `p_k > t`, the stage runs exactly the epochs
`0..k` (it starts `k + 1` epochs and ends in the state after epoch `k`); if no index below 16
has `p_k > t`, it runs exactly 16 epochs. -/
theorem early_termination {σ : Type} (runEpoch : σ → ℚ × σ) (t : ℚ) (s0 : σ) :
    (∀ k, k < 16 → pearsonOf runEpoch s0 k > t →
      (∀ j, j < k → ¬ pearsonOf runEpoch s0 j > t) →
      secondStage runEpoch t s0 = (stateAfter runEpoch s0 (k + 1), k + 1)) ∧
    ((∀ k, k < 16 → ¬ pearsonOf runEpoch s0 k > t) →
      secondStage runEpoch t s0 = (stateAfter runEpoch s0 16, 16)) := by
  constructor
  · intro k hk hp hnot
    have := epochLoop_stop runEpoch t s0 k maxEpochs 0 hk (by simpa using hp)
      (fun j hj => by simpa using hnot j hj)
    simpa [secondStage, stateAfter] using this
  · intro hnot
    have := epochLoop_exhaust runEpoch t s0 maxEpochs 0 (fun j hj => by simpa using hnot j hj)
    simpa [secondStage, stateAfter, maxEpochs] using this

theorem localTo_foldl {U α : Type} (D : Nat → Prop) (f : Addends U → α → Addends U)
    (hf : ∀ x, LocalTo D (fun A => f A x)) (l : List α) :
    LocalTo D (fun A => l.foldl f A) := by
  induction l with
  | nil => exact ⟨fun _ _ _ => rfl, fun _ _ h k hk => h k hk⟩
  | cons x l ih =>
    constructor
    · intro A k hk
      simp only [List.foldl_cons]
      exact (ih.1 (f A x) k hk).trans ((hf x).1 A k hk)
    · intro A B h k hk
      simp only [List.foldl_cons]
      exact ih.2 _ _ (fun k' hk' => (hf x).2 A B h k' hk') k hk

theorem localTo_pretrainRecord {U : Type} (ops : UnivariatePLOps U) (first second : Nat)
    (x : Nat → ℚ) (y mu : ℚ) :
    LocalTo (fun k => k = first ∨ k = second)
      (fun A : Addends U => pretrainRecord ops first second x y mu A) := by
  constructor
  · intro A k hk
    have h1 : k ≠ first := fun h => hk (Or.inl h)
    have h2 : k ≠ second := fun h => hk (Or.inr h)
    simp only [pretrainRecord, Function.update_noteq h1, Function.update_noteq h2]
  · intro A B h k _
    have h1 : A first = B first := h first (Or.inl rfl)
    have h2 : A second = B second := h second (Or.inr rfl)
    by_cases hfs : second = first
    · subst hfs
      simp only [pretrainRecord, Function.update_same, h1]
      by_cases hk : k = second
      · subst hk
        simp only [Function.update_same]
      · simp only [Function.update_noteq hk]
        exact absurd (by tauto) hk
    · simp only [pretrainRecord, Function.update_same, Function.update_noteq hfs,
        Function.update_noteq (Ne.symm hfs), h1, h2]
      by_cases hk : k = second
      · subst hk
        simp only [Function.update_same]
      · by_cases hk' : k = first
        · subst hk'
          simp only [Function.update_same, Function.update_noteq hk]
        · exact absurd (by tauto) hk

theorem localTo_pretrainTask {U : Type} (ops : UnivariatePLOps U) (first second : Nat)
    (inputs_training : Nat → Nat → ℚ) (target_training : Nat → ℚ) (mu : ℚ)
    (nTrainingRecords : Nat) :
    LocalTo (fun k => k = first ∨ k = second)
      (fun A : Addends U =>
        pretrainTask ops first second inputs_training target_training mu nTrainingRecords A) := by
  unfold pretrainTask
  apply localTo_foldl
  intro _
  apply localTo_foldl
  intro i
  exact localTo_pretrainRecord ops first second _ _ mu

theorem localTo_commute {U : Type} (D E : Nat → Prop) (F G : Addends U → Addends U)
    (hF : LocalTo D F) (hG : LocalTo E G) (hDE : ∀ k, D k → ¬ E k) (A : Addends U) :
    G (F A) = F (G A) ∧ (∀ k, D k → G (F A) k = F A k) ∧ (∀ k, E k → G (F A) k = G A k) := by
  have hD : ∀ k, D k → G (F A) k = F A k := fun k hk => hG.1 (F A) k (hDE k hk)
  have hE : ∀ k, E k → G (F A) k = G A k := fun k hk =>
    hG.2 (F A) A (fun k' hk' => hF.1 A k' (fun hd => hDE k' hd hk')) k hk
  refine ⟨?_, hD, hE⟩
  funext k
  by_cases hd : D k
  · rw [hD k hd]
    exact hF.2 A (G A) (fun k' hk' => (hG.1 A k' (hDE k' hk')).symm) k hd
  · rw [hF.1 (G A) k hd]
    by_cases he : E k
    · exact hE k he
    · rw [hG.1 (F A) k he, hF.1 A k hd, hG.1 A k he]

/-- C10 (pretraining independence). The pretraining task of a pair `(first, second)` leaves
every other shard unchanged, and what it leaves in shards `first` and `second` depends only on
what these two shards held. Hence for two disjoint pairs the two sequential orders give the
same store, in which each pair's shards hold what that pair's task produces when run alone on
the initial store. -/
theorem pretraining_independence {U : Type} (ops : UnivariatePLOps U)
    (first second first' second' : Nat)
    (hdisj : first ≠ first' ∧ first ≠ second' ∧ second ≠ first' ∧ second ≠ second')
    (inputs_training : Nat → Nat → ℚ) (target_training : Nat → ℚ) (mu : ℚ)
    (nTrainingRecords : Nat) (A : Addends U) :
    (∀ k, k ≠ first → k ≠ second →
      pretrainTask ops first second inputs_training target_training mu nTrainingRecords A k
        = A k) ∧
    (∀ B : Addends U, B first = A first → B second = A second →
      pretrainTask ops first second inputs_training target_training mu nTrainingRecords B first
        = pretrainTask ops first second inputs_training target_training mu nTrainingRecords A
            first ∧
      pretrainTask ops first second inputs_training target_training mu nTrainingRecords B second
        = pretrainTask ops first second inputs_training target_training mu nTrainingRecords A
            second) ∧
    (pretrainTask ops first' second' inputs_training target_training mu nTrainingRecords
        (pretrainTask ops first second inputs_training target_training mu nTrainingRecords A)
      = pretrainTask ops first second inputs_training target_training mu nTrainingRecords
        (pretrainTask ops first' second' inputs_training target_training mu nTrainingRecords
          A)) ∧
    (∀ k, k = first ∨ k = second →
      pretrainTask ops first' second' inputs_training target_training mu nTrainingRecords
        (pretrainTask ops first second inputs_training target_training mu nTrainingRecords A) k
      = pretrainTask ops first second inputs_training target_training mu nTrainingRecords A
          k) ∧
    (∀ k, k = first' ∨ k = second' →
      pretrainTask ops first' second' inputs_training target_training mu nTrainingRecords
        (pretrainTask ops first second inputs_training target_training mu nTrainingRecords A) k
      = pretrainTask ops first' second' inputs_training target_training mu nTrainingRecords A
          k) := by
  have hP := localTo_pretrainTask ops first second inputs_training target_training mu
    nTrainingRecords
  have hQ := localTo_pretrainTask ops first' second' inputs_training target_training mu
    nTrainingRecords
  have hDE : ∀ k, (k = first ∨ k = second) → ¬ (k = first' ∨ k = second') := by
    obtain ⟨h1, h2, h3, h4⟩ := hdisj
    rintro k (rfl | rfl) (h | h)
    · exact h1 h
    · exact h2 h
    · exact h3 h
    · exact h4 h
  obtain ⟨hc1, hc2, hc3⟩ := localTo_commute _ _ _ _ hP hQ hDE A
  refine ⟨?_, ?_, hc1, hc2, hc3⟩
  · intro k h1 h2
    exact hP.1 A k (by rintro (h | h); exact h1 h; exact h2 h)
  · intro B hB1 hB2
    have hag : ∀ k, (k = first ∨ k = second) → B k = A k := by
      rintro k (rfl | rfl)
      · exact hB1
      · exact hB2
    exact ⟨hP.2 B A hag first (Or.inl rfl), hP.2 B A hag second (Or.inr rfl)⟩

theorem pretraining_independence_witness :
    ((0 : Nat) ≠ 2 ∧ (0 : Nat) ≠ 3 ∧ (1 : Nat) ≠ 2 ∧ (1 : Nat) ≠ 3) ∧
    (pretrainTask linearStub 2 3 (fun i _ => i + 1) (fun i => 2 * i) (1 / 10) 3
        (pretrainTask linearStub 0 1 (fun i _ => i + 1) (fun i => 2 * i) (1 / 10) 3 stubAddends)
      = pretrainTask linearStub 0 1 (fun i _ => i + 1) (fun i => 2 * i) (1 / 10) 3
        (pretrainTask linearStub 2 3 (fun i _ => i + 1) (fun i => 2 * i) (1 / 10) 3
          stubAddends)) :=
  ⟨by decide,
    (pretraining_independence linearStub 0 1 2 3 (by decide) (fun i _ => i + 1)
      (fun i => 2 * i) (1 / 10) 3 stubAddends).2.2.1⟩

theorem stateAfter_rampEpoch (k : Nat) : stateAfter rampEpoch 0 k = k := by
  induction k with
  | zero => rfl
  | succ k ih => simp [stateAfter, ih, rampEpoch]

theorem early_termination_witness :
    ((3 < 16) ∧ pearsonOf rampEpoch 0 3 > 1 / 4 ∧
      (∀ j, j < 3 → ¬ pearsonOf rampEpoch 0 j > 1 / 4)) ∧
    secondStage rampEpoch (1 / 4) 0 = (stateAfter rampEpoch 0 (3 + 1), 3 + 1) :=
  have h1 : pearsonOf rampEpoch 0 3 > 1 / 4 := by
    simp only [pearsonOf, stateAfter_rampEpoch, rampEpoch]
    norm_num
  have h2 : ∀ j, j < 3 → ¬ pearsonOf rampEpoch 0 j > 1 / 4 := by
    intro j hj
    simp only [pearsonOf, stateAfter_rampEpoch, rampEpoch]
    interval_cases j <;> norm_num
  ⟨⟨by decide, h1, h2⟩, (early_termination rampEpoch (1 / 4) 0).1 3 (by decide) h1 h2⟩

/-- Value ranges: in every reachable state `Count`, `Phase`, `record` and every `local_round`
lie between 0 and `max n T`, so with `n` and `T` representable as C++ `int` no counter of the
protocol overflows. -/
theorem counters_in_range (n : Nat) (T : Int) (sched : List Thread) :
    (0 ≤ (run n T sched).1.barrier.Count ∧ (run n T sched).1.barrier.Count ≤ n) ∧
    (0 ≤ (run n T sched).1.barrier.Phase ∧ (run n T sched).1.barrier.Phase ≤ max T 0) ∧
    (0 ≤ (run n T sched).1.record ∧ (run n T sched).1.record ≤ max T 0) ∧
    (∀ w, w ∈ (run n T sched).1.workers → 0 ≤ w.local_round ∧ w.local_round ≤ max T 0) := by
  have hg := good_run n T sched
  have hc := hg.inv.count
  have hle : (run n T sched).1.workers.countP (parkedAt (run n T sched).1.barrier.Phase)
      ≤ (run n T sched).1.workers.length := List.countP_le_length _
  rw [hg.len] at hle
  have hph := hg.inv.phase
  have h2 := hg.inv.record_nonneg
  have h4 := hg.inv.inLoop
  have h5 := hg.inv.joined
  have h9 := hg.inv.record_le
  rw [hg.recs] at h4 h5 h9
  have hrec : (run n T sched).1.record ≤ max T 0 := h9
  have hphase : (run n T sched).1.barrier.Phase ≤ max T 0 := by
    by_cases hm : (run n T sched).1.mainPc = .loopNext
    · have := h4 (by simp [hm]) (by simp [hm])
      simp only [hm, if_true] at hph
      omega
    · simp only [hm, if_false] at hph
      omega
  refine ⟨⟨?_, ?_⟩, ⟨?_, hphase⟩, ⟨h2, hrec⟩, ?_⟩
  · rw [hc]; split <;> simp
  · rw [hc]; split <;> simp [hle]
  · split at hph <;> omega
  · intro w hw
    have hok := hg.inv.workers w hw
    obtain ⟨pc, lr⟩ := w
    simp only [WorkerOK] at hok ⊢
    cases pc <;> simp only at hok <;> omega

/-- Phase separation: whenever the main thread is between the return of `waitAll` and the
`Phase` increment of `release` (so also while it reads `PARTIAL_MODELS` and writes `RESIDUAL`),
every worker is spinning inside `arrive(record)`; hence no worker is computing, storing its
partial model, loading `RESIDUAL` or updating a shard at that time. -/
theorem phase_separation (n : Nat) (T : Int) (sched : List Thread)
    (h : (run n T sched).1.mainPc = .serial ∨ (run n T sched).1.mainPc = .releasing ∨
      (run n T sched).1.mainPc = .incPhase) :
    ∀ w, w ∈ (run n T sched).1.workers →
      w.pc = .spinning ∧ w.local_round = (run n T sched).1.record := by
  have hg := good_run n T sched
  intro w hw
  have := hg.inv.allArrived h w hw
  have hph := hg.inv.phase
  rcases h with hm | hm | hm <;> simp [hm] at hph <;> exact ⟨this.1, by omega⟩

theorem dataStep_ctl {U : Type} (cfg : EpochConfig U) (d : DataState U) (t : Thread) :
    (dataStep cfg d t).ctl = (step d.ctl t).1 := by
  cases t with
  | main =>
    simp only [dataStep]
    cases d.ctl.mainPc <;> rfl
  | worker id =>
    simp only [dataStep]
    cases d.ctl.workers[id]? with
    | none => rfl
    | some w =>
      simp only
      cases w.pc <;> (simp only; try split) <;> rfl

theorem dataRun_ctl {U : Type} (cfg : EpochConfig U) (T : Int) (A0 : Addends U) (R0 : ℚ)
    (P0 : Nat → ℚ) (sched : List Thread) :
    (dataRun cfg T A0 R0 P0 sched).ctl = (run cfg.THREADS T sched).1 := by
  rw [run, runFrom_fst]
  simp only [dataRun, exec]
  have : ∀ (d : DataState U),
      (sched.foldl (dataStep cfg) d).ctl = sched.foldl (fun s t => (step s t).1) d.ctl := by
    induction sched with
    | nil => intro d; rfl
    | cons t sched ih =>
      intro d
      simp only [List.foldl_cons]
      rw [ih, dataStep_ctl]
  rw [this]
  rfl

theorem workerCompute_block {U : Type} (ops : UnivariatePLOps U) (i bs : Nat)
    (x : Nat → ℚ) (A : Addends U) (P : Nat → ℚ) :
    workerCompute ops i (threadBlock bs i) x (A, P)
      = (fun k => if i * bs ≤ k ∧ k < i * bs + bs then ((A k).ComputeUsingInput ops x false).2
          else A k,
        Function.update P i
          (∑ t ∈ Finset.range bs, ((A (i * bs + t)).ComputeUsingInput ops x false).1)) := by
  simp only [workerCompute, threadBlock_eq]
  rw [compute_fold_range' ops x A bs (i * bs) 0 A (fun _ _ => rfl)]
  simp

theorem workerUpdate_block {U : Type} (ops : UnivariatePLOps U) (i bs : Nat)
    (RESIDUAL mu : ℚ) (A : Addends U) :
    (workerUpdate ops (threadBlock bs i) RESIDUAL mu (A, [])).1
      = fun k => if i * bs ≤ k ∧ k < i * bs + bs then
          (A k).UpdateUsingMemory ops (workerSignal RESIDUAL mu)
        else A k := by
  simp only [workerUpdate, threadBlock_eq]
  rw [update_fold_range' ops (workerSignal RESIDUAL mu) bs (i * bs)]

theorem seqRounds_succ {U : Type} (cfg : EpochConfig U) (A0 : Addends U) (k j : Nat) :
    seqRounds cfg A0 (k + 1) j
      = if j < cfg.THREADS * (cfg.nAddends / cfg.THREADS) then
          (seqCompute cfg A0 k j).2.UpdateUsingMemory cfg.ops
            (workerSignal (seqResidual cfg A0 k) cfg.mu)
        else seqRounds cfg A0 k j := by
  simp only [seqRounds, seqCompute, seqResidual]
  rw [(syncRound_eq cfg.ops cfg.nAddends cfg.THREADS cfg.mu (cfg.inputs_training k)
    (cfg.target_training k) (seqRounds cfg A0 k) (fun _ => 0)).2.2]

theorem seqResidual_eq {U : Type} (cfg : EpochConfig U) (A0 : Addends U) (k : Nat) :
    seqResidual cfg A0 k
      = cfg.target_training k
        - ∑ j ∈ Finset.range (cfg.THREADS * (cfg.nAddends / cfg.THREADS)),
            (seqCompute cfg A0 k j).1 := by
  simp only [seqResidual, seqCompute]
  rw [(syncRound_eq cfg.ops cfg.nAddends cfg.THREADS cfg.mu (cfg.inputs_training k)
    (cfg.target_training k) (seqRounds cfg A0 k) (fun _ => 0)).1]

theorem dataInv_mainStep {U : Type} (cfg : EpochConfig U) (A0 : Addends U) (d : DataState U)
    (hI : Inv d.ctl) (hlen : d.ctl.workers.length = cfg.THREADS) (hd : DataInv cfg A0 d) :
    DataInv cfg A0 (dataStep cfg d .main) := by
  obtain ⟨h1, h2, h3, h4, h5, h6⟩ := hd
  obtain ⟨⟨b, ws, mpc, rec, T⟩, R, P, A⟩ := d
  have hrec := hI.record_nonneg
  have hph := hI.phase
  have hall := hI.allArrived
  simp only at h1 h2 h3 h4 h5 h6 hrec hph hall hlen
  cases mpc <;> simp only [dataStep, step, mainStep]
  · -- loopHead
    split
    · exact ⟨h1, h2, h3, by simp, by simpa using h5, h6⟩
    · exact ⟨h1, h2, h3, by simp, by simpa using h5, h6⟩
  · -- waiting
    split
    · exact ⟨h1, h2, h3, by simp, by simpa using h5, h6⟩
    · exact ⟨h1, h2, h3, by simp, by simpa using h5, h6⟩
  · -- serial
    refine ⟨h1, h2, h3, ?_, by simp, h6⟩
    intro _
    simp only
    rw [serialBlock_eq, seqResidual_eq, ← sum_blocks]
    congr 1
    apply Finset.sum_congr rfl
    intro t ht
    have htn : t < ws.length := by rw [hlen]; exact Finset.mem_range.mp ht
    have hw : ws[t]? = some (ws.get ⟨t, htn⟩) := by simp [List.getElem?_eq_getElem htn]
    have hsp := hall (Or.inl rfl) _ (List.getElem?_mem hw)
    have hp := h3 t _ hw (Or.inr (Or.inl hsp.1))
    simp only [reduceCtorEq, if_false] at hph
    rw [hp, hsp.2, hph]
  · -- releasing
    exact ⟨h1, h2, h3, by simpa using h4, by simp, h6⟩
  · -- incPhase
    exact ⟨h1, h2, h3, by simpa using h4, by simp, h6⟩
  · -- loopNext
    refine ⟨h1, h2, h3, by simp, ?_, h6⟩
    intro _ _
    simp only
    have : (rec + 1).toNat - 1 = rec.toNat := by omega
    rw [this]
    exact h4 (Or.inr (Or.inr rfl))
  · -- joined
    exact ⟨h1, h2, h3, by simp, by simpa using h5, h6⟩

theorem dataInv_replace {U : Type} (cfg : EpochConfig U) (A0 : Addends U) (d : DataState U)
    (id : Nat) (w w' : WorkerState) (b' : CustomBarrier) (A' : Addends U) (P' : Nat → ℚ)
    (hd : DataInv cfg A0 d) (hw : d.ctl.workers[id]? = some w) (hid : id < cfg.THREADS)
    (hA : ∀ j, j ∉ threadBlock (cfg.nAddends / cfg.THREADS) id → A' j = d.addends j)
    (hP : ∀ i, i ≠ id → P' i = d.PARTIAL_MODELS i)
    (hb : ¬ w'.pc.midRound → ∀ j, j ∈ threadBlock (cfg.nAddends / cfg.THREADS) id →
      A' j = seqRounds cfg A0 w'.local_round.toNat j)
    (ha : w'.pc.midRound → ∀ j, j ∈ threadBlock (cfg.nAddends / cfg.THREADS) id →
      A' j = (seqCompute cfg A0 w'.local_round.toNat j).2)
    (hp : w'.pc.midRound →
      P' id = ∑ t ∈ Finset.range (cfg.nAddends / cfg.THREADS),
        (seqCompute cfg A0 w'.local_round.toNat (id * (cfg.nAddends / cfg.THREADS) + t)).1) :
    DataInv cfg A0
      ⟨{ d.ctl with barrier := b', workers := d.ctl.workers.set id w' }, d.RESIDUAL, P', A'⟩ := by
  obtain ⟨h1, h2, h3, h4, h5, h6⟩ := hd
  have hlt : id < d.ctl.workers.length := by
    rcases Nat.lt_or_ge id d.ctl.workers.length with h | h
    · exact h
    · rw [List.getElem?_eq_none h] at hw; simp at hw
  have hother : ∀ i, i ≠ id → ∀ j, j ∈ threadBlock (cfg.nAddends / cfg.THREADS) i →
      A' j = d.addends j := fun i hi j hj =>
    hA j (fun hj' => hi (threadBlock_disjoint _ _ _ _ hj hj'))
  refine ⟨?_, ?_, ?_, h4, h5, ?_⟩ <;> simp only
  · intro i x hx hnm j hj
    by_cases hi : i = id
    · subst hi
      rw [List.getElem?_set_self hlt] at hx
      cases hx
      exact hb hnm j hj
    · rw [List.getElem?_set_ne (Ne.symm hi)] at hx
      rw [hother i hi j hj]
      exact h1 i x hx hnm j hj
  · intro i x hx hm j hj
    by_cases hi : i = id
    · subst hi
      rw [List.getElem?_set_self hlt] at hx
      cases hx
      exact ha hm j hj
    · rw [List.getElem?_set_ne (Ne.symm hi)] at hx
      rw [hother i hi j hj]
      exact h2 i x hx hm j hj
  · intro i x hx hm
    by_cases hi : i = id
    · subst hi
      rw [List.getElem?_set_self hlt] at hx
      cases hx
      exact hp hm
    · rw [List.getElem?_set_ne (Ne.symm hi)] at hx
      rw [hP i hi]
      exact h3 i x hx hm
  · intro j hj
    rw [hA j, h6 j hj]
    intro hmem
    have := (covered_iff (cfg.nAddends / cfg.THREADS) cfg.THREADS j).mp ⟨id, hid, hmem⟩
    omega

theorem dataInv_workerStep {U : Type} (cfg : EpochConfig U) (A0 : Addends U)
    (d : DataState U) (id : Nat) (hI : Inv d.ctl) (hlen : d.ctl.workers.length = cfg.THREADS)
    (hd : DataInv cfg A0 d) : DataInv cfg A0 (dataStep cfg d (.worker id)) := by
  cases hw : d.ctl.workers[id]? with
  | none =>
    simp only [dataStep, step, hw]
    exact hd
  | some w =>
    have hid : id < cfg.THREADS := by
      rw [← hlen]
      rcases Nat.lt_or_ge id d.ctl.workers.length with h | h
      · exact h
      · rw [List.getElem?_eq_none h] at hw; simp at hw
    have hok := hI.workers w (List.getElem?_mem hw)
    have hnot := fun hm => hI.allArrived hm w (List.getElem?_mem hw)
    have hph := hI.phase
    have hrec := hI.record_nonneg
    obtain ⟨pc, lr⟩ := w
    simp only [WorkerOK] at hok
    cases pc <;> simp only at hok hnot
    · -- loopHead
      by_cases hlt : lr < d.ctl.nTrainingRecords
      · simp only [dataStep, step, hw, workerStep, if_pos hlt, workerCompute_block]
        have hbefore := hd.shards_before id _ hw (by simp [WorkerPc.midRound])
        simp only at hbefore
        apply dataInv_replace cfg A0 d id _ ⟨.arriving, lr⟩ _ _ _ hd hw hid
        · intro j hj
          rw [mem_threadBlock, Nat.succ_mul] at hj
          simp only [if_neg hj]
        · intro i hi
          simp only [Function.update_noteq hi]
        · intro hnm
          exact absurd (Or.inl rfl) hnm
        · intro _ j hj
          have hj' := hj
          rw [mem_threadBlock, Nat.succ_mul] at hj'
          simp only [if_pos hj', seqCompute]
          rw [hbefore j hj]
        · intro _
          simp only [Function.update_same, seqCompute]
          apply Finset.sum_congr rfl
          intro t ht
          rw [hbefore _ ((mem_threadBlock _ _ _).mpr ⟨by omega, by
            rw [Nat.succ_mul]; have := Finset.mem_range.mp ht; omega⟩)]
      · simp only [dataStep, step, hw, workerStep, if_neg hlt]
        apply dataInv_replace cfg A0 d id _ ⟨.finished, lr⟩ _ _ _ hd hw hid
          (fun _ _ => rfl) (fun _ _ => rfl)
        · intro _ j hj
          exact hd.shards_before id _ hw (by simp [WorkerPc.midRound]) j hj
        · intro hm
          simp [WorkerPc.midRound] at hm
        · intro hm
          simp [WorkerPc.midRound] at hm
    · -- arriving
      simp only [dataStep, step, hw, workerStep]
      apply dataInv_replace cfg A0 d id _ ⟨.spinning, lr⟩ _ _ _ hd hw hid
        (fun _ _ => rfl) (fun _ _ => rfl)
      · intro hnm
        exact absurd (Or.inr (Or.inl rfl)) hnm
      · intro _ j hj
        exact hd.shards_after id ⟨.arriving, lr⟩ hw (Or.inl rfl) j hj
      · intro _
        exact hd.partials id ⟨.arriving, lr⟩ hw (Or.inl rfl)
    · -- spinning
      by_cases hsp : d.ctl.barrier.arriveSpins lr = true
      · simp only [dataStep, step, hw, workerStep, if_pos hsp]
        apply dataInv_replace cfg A0 d id _ ⟨.spinning, lr⟩ _ _ _ hd hw hid
          (fun _ _ => rfl) (fun _ _ => rfl)
        · intro hnm
          exact absurd (Or.inr (Or.inl rfl)) hnm
        · intro _ j hj
          exact hd.shards_after id ⟨.spinning, lr⟩ hw (Or.inr (Or.inl rfl)) j hj
        · intro _
          exact hd.partials id ⟨.spinning, lr⟩ hw (Or.inr (Or.inl rfl))
      · simp only [dataStep, step, hw, workerStep, if_neg hsp]
        apply dataInv_replace cfg A0 d id _ ⟨.updating, lr⟩ _ _ _ hd hw hid
          (fun _ _ => rfl) (fun _ _ => rfl)
        · intro hnm
          exact absurd (Or.inr (Or.inr rfl)) hnm
        · intro _ j hj
          exact hd.shards_after id ⟨.spinning, lr⟩ hw (Or.inr (Or.inl rfl)) j hj
        · intro _
          exact hd.partials id ⟨.spinning, lr⟩ hw (Or.inr (Or.inl rfl))
    · -- updating
      simp only [dataStep, step, hw, workerStep, workerUpdate_block]
      have hres : d.RESIDUAL = seqResidual cfg A0 lr.toNat := by
        have hnew := hd.residual_new
        have hold := hd.residual_old
        cases hm : d.ctl.mainPc <;> simp only [hm, reduceCtorEq, if_false, if_true] at hph
        · have := hold (by simp [hm]) (by omega)
          rw [this]; congr 1; omega
        · have := hold (by simp [hm]) (by omega)
          rw [this]; congr 1; omega
        · exact absurd (hnot (Or.inl hm)).1 (by simp)
        · exact absurd (hnot (Or.inr (Or.inl hm))).1 (by simp)
        · exact absurd (hnot (Or.inr (Or.inr hm))).1 (by simp)
        · have := hnew (by simp [hm])
          rw [this]; congr 1; omega
        · have := hold (by simp [hm]) (by omega)
          rw [this]; congr 1; omega
      have hafter := hd.shards_after id ⟨.updating, lr⟩ hw (Or.inr (Or.inr rfl))
      simp only at hafter
      apply dataInv_replace cfg A0 d id _ ⟨.loopHead, lr + 1⟩ _ _ _ hd hw hid
      · intro j hj
        rw [mem_threadBlock, Nat.succ_mul] at hj
        simp only [if_neg hj]
      · intro _ _
        rfl
      · intro _ j hj
        have hj' := hj
        rw [mem_threadBlock, Nat.succ_mul] at hj'
        have hcov := (covered_iff (cfg.nAddends / cfg.THREADS) cfg.THREADS j).mp ⟨id, hid, hj⟩
        have hnat : (lr + 1).toNat = lr.toNat + 1 := by omega
        simp only [if_pos hj', hnat]
        rw [seqRounds_succ, if_pos hcov, hafter j hj, hres]
      · intro hm
        simp [WorkerPc.midRound] at hm
      · intro hm
        simp [WorkerPc.midRound] at hm
    · -- finished
      simp only [dataStep, step, hw, workerStep]
      apply dataInv_replace cfg A0 d id _ ⟨.finished, lr⟩ _ _ _ hd hw hid
        (fun _ _ => rfl) (fun _ _ => rfl)
      · intro _ j hj
        exact hd.shards_before id _ hw (by simp [WorkerPc.midRound]) j hj
      · intro hm
        simp [WorkerPc.midRound] at hm
      · intro hm
        simp [WorkerPc.midRound] at hm

theorem dataInv_init {U : Type} (cfg : EpochConfig U) (T : Int) (A0 : Addends U) (R0 : ℚ)
    (P0 : Nat → ℚ) : DataInv cfg A0 (dataInit cfg T A0 R0 P0) := by
  have hw : ∀ (i : Nat) (w : WorkerState), (initState cfg.THREADS T).workers[i]? = some w →
      w = ⟨.loopHead, 0⟩ := by
    intro i w h
    exact (List.mem_replicate.mp (List.getElem?_mem h)).2
  refine ⟨?_, ?_, ?_, ?_, ?_, ?_⟩ <;> simp only [dataInit]
  · intro i w h _ j _
    rw [hw i w h]
    rfl
  · intro i w h hm
    rw [hw i w h] at hm
    simp [WorkerPc.midRound] at hm
  · intro i w h hm
    rw [hw i w h] at hm
    simp [WorkerPc.midRound] at hm
  · intro h
    simp [initState] at h
  · intro _ h
    simp [initState] at h
  · intro _ _
    trivial

theorem dataInv_foldl {U : Type} (cfg : EpochConfig U) (A0 : Addends U)
    (sched : List Thread) :
    ∀ d : DataState U, Inv d.ctl → d.ctl.workers.length = cfg.THREADS → DataInv cfg A0 d →
      DataInv cfg A0 (sched.foldl (dataStep cfg) d) := by
  induction sched with
  | nil => intro d _ _ h; exact h
  | cons t sched ih =>
    intro d hI hlen hd
    simp only [List.foldl_cons]
    apply ih
    · rw [dataStep_ctl]; exact inv_step _ _ hI
    · rw [dataStep_ctl, step_workers_length]; exact hlen
    · cases t with
      | main => exact dataInv_mainStep cfg A0 d hI hlen hd
      | worker id => exact dataInv_workerStep cfg A0 d id hI hlen hd

theorem dataInv_run {U : Type} (cfg : EpochConfig U) (T : Int) (A0 : Addends U) (R0 : ℚ)
    (P0 : Nat → ℚ) (sched : List Thread) :
    DataInv cfg A0 (dataRun cfg T A0 R0 P0 sched) :=
  dataInv_foldl cfg A0 sched _ (inv_init _ _) (by simp [dataInit, initState])
    (dataInv_init cfg T A0 R0 P0)

theorem seqRounds_outside {U : Type} (cfg : EpochConfig U) (A0 : Addends U) (j : Nat)
    (hj : cfg.THREADS * (cfg.nAddends / cfg.THREADS) ≤ j) (k : Nat) :
    seqRounds cfg A0 k j = A0 j := by
  induction k with
  | zero => rfl
  | succ k ih => rw [seqRounds_succ, if_neg (Nat.not_lt.mpr hj), ih]

/-- Under every interleaving, a worker that is about to run its update loop for round `k`
(it has returned from `arrive(k)`) finds in `RESIDUAL` the residual of round `k` of the
sequential execution, and its shards are the sequential shards of round `k` after their
compute; so the update it performs is the one `syncRound` performs. -/
theorem interleaved_update_signal {U : Type} (cfg : EpochConfig U) (T : Int)
    (A0 : Addends U) (R0 : ℚ) (P0 : Nat → ℚ) (sched : List Thread) (i : Nat) (k : Int)
    (hw : (dataRun cfg T A0 R0 P0 sched).ctl.workers[i]? = some ⟨.updating, k⟩) :
    (dataRun cfg T A0 R0 P0 sched).RESIDUAL = seqResidual cfg A0 k.toNat ∧
    ∀ j, j ∈ threadBlock (cfg.nAddends / cfg.THREADS) i →
      (dataRun cfg T A0 R0 P0 sched).addends j = (seqCompute cfg A0 k.toNat j).2 := by
  have hd := dataInv_run cfg T A0 R0 P0 sched
  have hI : Inv (dataRun cfg T A0 R0 P0 sched).ctl := by
    rw [dataRun_ctl]; exact (good_run _ _ _).inv
  refine ⟨?_, hd.shards_after i _ hw (Or.inr (Or.inr rfl))⟩
  have hok := hI.workers _ (List.getElem?_mem hw)
  have hnot := fun hm => hI.allArrived hm _ (List.getElem?_mem hw)
  have hph := hI.phase
  have hrec := hI.record_nonneg
  have hnew := hd.residual_new
  have hold := hd.residual_old
  simp only [WorkerOK] at hok hnot
  cases hm : (dataRun cfg T A0 R0 P0 sched).ctl.mainPc <;>
    simp only [hm, reduceCtorEq, if_false, if_true] at hph
  · have := hold (by simp [hm]) (by omega)
    rw [this]; congr 1; omega
  · have := hold (by simp [hm]) (by omega)
    rw [this]; congr 1; omega
  · exact absurd (hnot (Or.inl hm)).1 (by simp)
  · exact absurd (hnot (Or.inr (Or.inl hm))).1 (by simp)
  · exact absurd (hnot (Or.inr (Or.inr hm))).1 (by simp)
  · have := hnew (by simp [hm])
    rw [this]; congr 1; omega
  · have := hold (by simp [hm]) (by omega)
    rw [this]; congr 1; omega

/-- The interleaved execution refines the sequential one: under every interleaving, once all
workers have left their loops the shards are exactly those produced by running the
`nTrainingRecords` synchronised rounds one after the other. -/
theorem interleaving_refines_sequential {U : Type} (cfg : EpochConfig U) (T : Int)
    (A0 : Addends U) (R0 : ℚ) (P0 : Nat → ℚ) (sched : List Thread)
    (hfin : ∀ w, w ∈ (dataRun cfg T A0 R0 P0 sched).ctl.workers → w.pc = .finished) :
    (dataRun cfg T A0 R0 P0 sched).addends = seqRounds cfg A0 T.toNat := by
  have hd := dataInv_run cfg T A0 R0 P0 sched
  have hctl := dataRun_ctl cfg T A0 R0 P0 sched
  have hg := good_run cfg.THREADS T sched
  have hrange := counters_in_range cfg.THREADS T sched
  funext j
  by_cases hj : j < cfg.THREADS * (cfg.nAddends / cfg.THREADS)
  · obtain ⟨i, hi, hmem⟩ := (covered_iff _ _ j).mpr hj
    have hlen : i < (dataRun cfg T A0 R0 P0 sched).ctl.workers.length := by
      rw [hctl, hg.len]; exact hi
    obtain ⟨w, hw⟩ : ∃ w, (dataRun cfg T A0 R0 P0 sched).ctl.workers[i]? = some w :=
      ⟨_, List.getElem?_eq_getElem hlen⟩
    have hmemw := List.getElem?_mem hw
    have hpc := hfin w hmemw
    have hb := hd.shards_before i w hw (by simp [WorkerPc.midRound, hpc]) j hmem
    rw [hb]
    congr 1
    rw [hctl] at hmemw
    have hok := hg.inv.workers w hmemw
    have hr := hrange.2.2.2 w hmemw
    simp only [WorkerOK, hpc, hg.recs] at hok
    omega
  · have hj' := Nat.not_lt.mp hj
    rw [hd.others j hj', seqRounds_outside cfg A0 j hj']

/-- Under the round-robin schedule `epochSched` the epoch completes, and the shards it leaves
are those of `R` sequential rounds. -/
theorem complete_epoch_data {U : Type} (cfg : EpochConfig U) (R : Nat) (A0 : Addends U)
    (R0 : ℚ) (P0 : Nat → ℚ) :
    (dataRun cfg R A0 R0 P0 (epochSched cfg.THREADS R)).ctl.mainPc = .joined ∧
    (dataRun cfg R A0 R0 P0 (epochSched cfg.THREADS R)).addends = seqRounds cfg A0 R := by
  have hctl := dataRun_ctl cfg R A0 R0 P0 (epochSched cfg.THREADS R)
  rw [exists_complete_run] at hctl
  constructor
  · rw [hctl]
  · have := interleaving_refines_sequential cfg R A0 R0 P0 (epochSched cfg.THREADS R)
      (by
        rw [hctl]
        intro w hw
        rw [(List.mem_replicate.mp hw).2])
    simpa using this

end DetFast
